import Mathlib

/-!
Verification development for the rCore-Tutorial teaching kernel.

Each kernel / file-system routine relevant to the checked properties is
shallowly embedded as an executable Lean definition translated from the
Rust source (`src/os`, `src/easy-fs`).  Machine integers are modelled as
`Nat`/`Int` with explicit `% 2^w` where wrap-around matters; fallible or
panicking code returns `Option` or an explicit result constructor.
-/

namespace RCore

/-- Rust's `as usize` cast on a signed 64-bit value: reduce modulo `2^64`. -/
def asUsize (i : Int) : Nat := (i % (2 ^ 64 : Int)).toNat

/-- Generic index-carrying linear scan, mirroring Rust's
`iter().enumerate().find(p)` idiom used throughout the source
(`sys_waitpid`, `BlockCacheManager::get_block_cache`, `Bitmap::alloc`). -/
def findFirstIdx {α : Type} (p : α → Bool) : Nat → List α → Option (Nat × α)
  | _, [] => none
  | i, a :: as => if p a then some (i, a) else findFirstIdx p (i + 1) as

/-! ## Process exit status and `sys_waitpid` (src/os/src/syscall/process.rs) -/

/-- Task run states from `src/os/src/task/task.rs` (`TaskStatus`). -/
inductive TaskStatus
  | Ready
  | Running
  | Zombie
deriving DecidableEq, Repr

/-- The slice of a child `TaskControlBlock` observed by `sys_waitpid`:
its pid (`getpid`), its scheduling status, and its recorded exit code. -/
structure ChildProc where
  cpid : Nat
  status : TaskStatus
  exitCode : Int
deriving DecidableEq, Repr

/-- `TaskControlBlockInner::is_zombie` from `src/os/src/task/task.rs`. -/
def ChildProc.isZombie (c : ChildProc) : Bool := c.status == TaskStatus.Zombie

/-- The child-selection predicate of `sys_waitpid`:
`pid == -1 || pid as usize == p.getpid()`. -/
def childMatches (pid : Int) (c : ChildProc) : Bool :=
  pid == -1 || asUsize pid == c.cpid

/-- `sys_waitpid` from `src/os/src/syscall/process.rs`, acting on the calling
process's children list.  The result is the returned value, the children list
after the call, and the exit code written through `exit_code_ptr` (`none`
when nothing is written).  The assertion `Arc::strong_count(&child) == 1`
and the page-table walk of `translated_refmut` are resource-management
details outside this state model. -/
def sys_waitpid (pid : Int) (children : List ChildProc) :
    Int × List ChildProc × Option Int :=
  if ¬ children.any (fun p => childMatches pid p) then
    (-1, children, none)
  else
    match findFirstIdx (fun p => p.isZombie && childMatches pid p) 0 children with
    | some (idx, child) =>
        ((child.cpid : Int), children.eraseIdx idx, some child.exitCode)
    | none => (-2, children, none)

/-! ## Trap dispatch (src/os/src/trap/mod.rs) -/

/-- Trap causes distinguished by the `match scause.cause()` in
`trap_handler`. -/
inductive TrapCause
  | userEnvCall
  | storeFault
  | storePageFault
  | instructionFault
  | instructionPageFault
  | loadFault
  | loadPageFault
  | illegalInstruction
  | supervisorTimer
  | otherTrap
deriving DecidableEq, Repr

/-- Kernel routines invoked from `trap_handler`, in call order.
`handleSignalsStep` stands for the `handle_signals` routine defined in
`src/os/src/task/mod.rs`. -/
inductive KernelStep
  | setKernelTrapEntry
  | syscallDispatch
  | exitCurrentAndRunNext (code : Int)
  | setNextTrigger
  | suspendCurrentAndRunNext
  | handleSignalsStep
  | trapReturn
  | kernelPanic
deriving DecidableEq, Repr

/-- The sequence of kernel routines invoked by `trap_handler`
(src/os/src/trap/mod.rs) for each trap cause, transcribed from the
function body: `set_kernel_trap_entry()`, then the cause-specific arm of
the `match`, then `trap_return()` (the `panic!` arm diverges instead). -/
def trap_handler (cause : TrapCause) : List KernelStep :=
  KernelStep.setKernelTrapEntry ::
    (match cause with
     | .userEnvCall => [.syscallDispatch, .trapReturn]
     | .storeFault | .storePageFault | .instructionFault
     | .instructionPageFault | .loadFault | .loadPageFault =>
         [.exitCurrentAndRunNext (-2), .trapReturn]
     | .illegalInstruction => [.exitCurrentAndRunNext (-3), .trapReturn]
     | .supervisorTimer => [.setNextTrigger, .suspendCurrentAndRunNext, .trapReturn]
     | .otherTrap => [.kernelPanic])

/-! ## File syscalls (src/os/src/syscall/fs.rs) -/

/-- Outcome of a syscall handler: a returned value, or a kernel `panic!`. -/
inductive SysResult
  | ret (v : Int)
  | panicked
deriving DecidableEq, Repr

/-- `FD_STDIN` from `src/os/src/syscall/fs.rs`. -/
def FD_STDIN : Nat := 0

/-- `FD_STDOUT` from `src/os/src/syscall/fs.rs`. -/
def FD_STDOUT : Nat := 1

/-- `sys_write` from `src/os/src/syscall/fs.rs`: the `FD_STDOUT` arm prints
the translated buffers and returns `len`; every other fd hits
`panic!("Unsupported fd in sys_write!")`. -/
def sys_write (fd : Nat) (len : Nat) : SysResult :=
  if fd = FD_STDOUT then .ret (Int.ofNat len) else .panicked

/-- `sys_read` from `src/os/src/syscall/fs.rs`: the `FD_STDIN` arm asserts
`len == 1` (a failed assertion is a panic), blocks until the console yields a
character, writes it through the translated buffer and returns `1`; every
other fd hits `panic!("Unsupported fd in sys_read!")`.  The blocking
`console_getchar` loop is condensed to its terminating outcome. -/
def sys_read (fd : Nat) (len : Nat) : SysResult :=
  if fd = FD_STDIN then
    if len ≠ 1 then .panicked else .ret 1
  else .panicked

/-! ## Pipe ring buffer (src/os/src/fs/pipe.rs) -/

/-- `RING_BUFFER_SIZE` from `src/os/src/fs/pipe.rs`. -/
def RING_BUFFER_SIZE : Nat := 32

/-- `RingBufferStatus` from `src/os/src/fs/pipe.rs`. -/
inductive RingBufferStatus
  | Full
  | Empty
  | Normal
deriving DecidableEq, Repr

/-- `PipeRingBuffer` from `src/os/src/fs/pipe.rs`.  The `write_end:
Option<Weak<Pipe>>` field is modelled separately: whether the stored weak
reference can still be upgraded is the `writeEndAlive` flag threaded through
the read loop below. -/
structure PipeRingBuffer where
  arr : List Nat
  head : Nat
  tail : Nat
  status : RingBufferStatus
deriving DecidableEq, Repr

/-- `PipeRingBuffer::new`. -/
def PipeRingBuffer.new : PipeRingBuffer :=
  ⟨List.replicate RING_BUFFER_SIZE 0, 0, 0, .Empty⟩

/-- `PipeRingBuffer::write_byte`: set status `Normal`, store at `tail`,
advance `tail` mod 32, and mark `Full` when the new tail catches `head`.
Callable only when the ring is not full. -/
def PipeRingBuffer.write_byte (rb : PipeRingBuffer) (byte : Nat) :
    PipeRingBuffer :=
  let rb1 : PipeRingBuffer :=
    { rb with
      status := .Normal
      arr := rb.arr.set rb.tail byte
      tail := (rb.tail + 1) % RING_BUFFER_SIZE }
  if rb1.tail == rb1.head then { rb1 with status := .Full } else rb1

/-- `PipeRingBuffer::read_byte`: set status `Normal`, take the byte at
`head`, advance `head` mod 32, and mark `Empty` when the new head catches
`tail`.  Callable only when the ring is not empty. -/
def PipeRingBuffer.read_byte (rb : PipeRingBuffer) : Nat × PipeRingBuffer :=
  let c := rb.arr.getD rb.head 0
  let rb1 : PipeRingBuffer :=
    { rb with status := .Normal, head := (rb.head + 1) % RING_BUFFER_SIZE }
  if rb1.head == rb1.tail then (c, { rb1 with status := .Empty }) else (c, rb1)

/-- `PipeRingBuffer::available_read`. -/
def PipeRingBuffer.available_read (rb : PipeRingBuffer) : Nat :=
  if rb.status == .Empty then 0
  else if rb.tail > rb.head then rb.tail - rb.head
  else rb.tail + RING_BUFFER_SIZE - rb.head

/-- `PipeRingBuffer::available_write`. -/
def PipeRingBuffer.available_write (rb : PipeRingBuffer) : Nat :=
  if rb.status == .Full then 0 else RING_BUFFER_SIZE - rb.available_read

/-- `PipeRingBuffer::all_write_ends_closed`: upgrading the stored weak
reference fails exactly when no strong reference to the write end remains. -/
def allWriteEndsClosed (writeEndAlive : Bool) : Bool := !writeEndAlive

/-- The invariant stated by the spec for the pipe ring: `head == tail` iff
the status is `Empty` or `Full` (plus the index bounds maintained by the
mod-32 arithmetic). -/
def ringInv (rb : PipeRingBuffer) : Prop :=
  rb.head < RING_BUFFER_SIZE ∧ rb.tail < RING_BUFFER_SIZE ∧
    (rb.head = rb.tail ↔
      rb.status = RingBufferStatus.Empty ∨ rb.status = RingBufferStatus.Full)

/-- Outcome of one pass of the `loop` in `Pipe::read`
(src/os/src/fs/pipe.rs): either the read returns with a byte count, or the
reader suspends (`suspend_current_and_run_next`) and retries, or the inner
`for` loop exhausted this round's `loop_read` bytes and the outer loop
continues. -/
inductive PipeReadRound
  | ret (count : Nat) (rb : PipeRingBuffer)
  | yieldRetry (already : Nat) (rb : PipeRingBuffer)
  | nextRound (already : Nat) (rb : PipeRingBuffer)
deriving DecidableEq, Repr

/-- The inner `for _ in 0..loop_read` loop of `Pipe::read`: while the user
buffer still has room (`already < want`, i.e. `buf_iter.next()` is `Some`),
read one byte from the ring; return `want` as soon as the buffer fills;
return `already` if the buffer is exhausted. -/
def pipeReadLoop : Nat → PipeRingBuffer → Nat → Nat → PipeReadRound
  | 0, rb, _, already => .nextRound already rb
  | n + 1, rb, want, already =>
      if already < want then
        let rb' := (rb.read_byte).2
        if already + 1 = want then .ret want rb'
        else pipeReadLoop n rb' want (already + 1)
      else .ret already rb

/-- One pass of the outer `loop` of `Pipe::read`: compute `loop_read =
available_read()`; if zero, return the bytes read so far when all write ends
are closed, else release the ring and yield; otherwise run the inner copy
loop for `loop_read` bytes. -/
def pipeReadRound (rb : PipeRingBuffer) (writeEndAlive : Bool)
    (want already : Nat) : PipeReadRound :=
  let loopRead := rb.available_read
  if loopRead = 0 then
    if allWriteEndsClosed writeEndAlive then .ret already rb
    else .yieldRetry already rb
  else pipeReadLoop loopRead rb want already

/-! ## Signal actions and `sys_sigaction` (src/os/src/syscall/process.rs) -/

/-- Modelled from the spec: `MAX_SIG` from the missing
`src/os/src/task/signal.rs`; the spec's signal set is "32 single-bit
flags" numbered 0..31, and `signal_actions.table` has 32 entries, so the
largest signal number is 31. -/
def MAX_SIG : Nat := 31

/-- Modelled from the spec: a `SignalFlags` value (missing
`src/os/src/task/signal.rs`) is a u32 bit set in which all 32 single-bit
flags are defined; it is represented by its `bits` value. -/
abbrev SignalFlags := Nat

/-- Modelled from the spec: `SignalFlags::from_bits` succeeds exactly on
u32 values whose set bits are all defined flags; with all 32 flags defined
that is every value below `2^32`. -/
def SignalFlags.from_bits (v : Nat) : Option SignalFlags :=
  if v < 2 ^ 32 then some v else none

/-- Modelled from the spec: `SignalFlags::SIGKILL` is the flag of signal
number 9. -/
def SIGKILL : SignalFlags := 2 ^ 9

/-- Modelled from the spec: `SignalFlags::SIGSTOP` is the flag of signal
number 19. -/
def SIGSTOP : SignalFlags := 2 ^ 19

/-- Modelled from the spec: `SignalAction` from the missing
`src/os/src/task/action.rs` — `{handler: usize, mask: u32}` (the mask is
kept abstract as its bits). -/
structure SignalAction where
  handler : Nat
  mask : Nat
deriving DecidableEq, Repr

/-- `check_sigaction_error` from `src/os/src/syscall/process.rs`: an error
iff `action` or `old_action` is a null pointer, or the signal is SIGKILL or
SIGSTOP. -/
def check_sigaction_error (signal : SignalFlags) (action old_action : Nat) :
    Bool :=
  decide (action = 0) || decide (old_action = 0) ||
    decide (signal = SIGKILL) || decide (signal = SIGSTOP)

/-- `sys_sigaction` from `src/os/src/syscall/process.rs`, acting on the
process's signal-action table.  `newAct` is the `SignalAction` read through
the `action` pointer; the result is the returned value, the table after the
call, and the previous action written through `old_action` (`none` when
nothing is written). -/
def sys_sigaction (signum : Int) (action old_action : Nat)
    (newAct : SignalAction) (table : List SignalAction) :
    Int × List SignalAction × Option SignalAction :=
  if asUsize signum > MAX_SIG then (-1, table, none)
  else
    match SignalFlags.from_bits (1 <<< asUsize signum) with
    | none => (-1, table, none)
    | some flag =>
      if check_sigaction_error flag action old_action then (-1, table, none)
      else
        let prev := table.getD (asUsize signum) ⟨0, 0⟩
        (0, table.set (asUsize signum) newAct, some prev)

/-! ## Address translation (src/os/src/mm/page_table.rs) -/

/-- `PAGE_SIZE` from `src/os/src/config.rs` (0x1000). -/
def PAGE_SIZE : Nat := 4096

/-- Modelled from the spec: `VirtAddr::floor` from the missing
`src/os/src/mm/address.rs` — the number of the 4 KiB page containing the
address. -/
def VirtAddr.floor (va : Nat) : Nat := va / PAGE_SIZE

/-- Modelled from the spec: `VirtAddr::page_offset` from the missing
`src/os/src/mm/address.rs` — the offset of the address within its page. -/
def VirtAddr.page_offset (va : Nat) : Nat := va % PAGE_SIZE

/-- Modelled from the spec: `StepByOne::step` on a `VirtPageNum` from the
missing `src/os/src/mm/address.rs` — advance to the next page number. -/
def VirtPageNum.step (vpn : Nat) : Nat := vpn + 1

/-- A kernel-visible byte slice produced by `translated_byte_buffer`:
the physical page number of `ppn.get_bytes_array()` together with the
half-open byte range `[lo, hi)` taken inside that frame. -/
abbrev ByteSlice := Nat × Nat × Nat

/-- The `while start < end` loop of `translated_byte_buffer`
(src/os/src/mm/page_table.rs): translate the page of `start`
(`none` models the `unwrap` panic on an unmapped page), step to the next
page boundary, clamp by `end`, emit the slice
`[start.page_offset, end_va.page_offset or PAGE_SIZE)` of that frame, and
continue from `end_va`. -/
def tbbGo (pt : Nat → Option Nat) (start finish : Nat) :
    Option (List ByteSlice) :=
  if _h : start < finish then
    let vpn := VirtAddr.floor start
    match pt vpn with
    | none => none
    | some ppn =>
      let endVa := min (VirtPageNum.step vpn * PAGE_SIZE) finish
      let slice : ByteSlice :=
        (ppn, VirtAddr.page_offset start,
         if VirtAddr.page_offset endVa = 0 then PAGE_SIZE
         else VirtAddr.page_offset endVa)
      match tbbGo pt endVa finish with
      | none => none
      | some rest => some (slice :: rest)
  else some []
termination_by finish - start
decreasing_by
  simp only [VirtAddr.floor, VirtPageNum.step, PAGE_SIZE] at *
  omega

/-- `translated_byte_buffer(token, ptr, len)` from
`src/os/src/mm/page_table.rs`, with the page table of `token` presented as
its `translate` function `vpn ↦ ppn`. -/
def translated_byte_buffer (pt : Nat → Option Nat) (ptr len : Nat) :
    Option (List ByteSlice) :=
  tbbGo pt ptr (ptr + len)

/-- Declarative description of the slice a correct translation must emit
for virtual page `vpn` of the buffer `[start, finish)`: the page's frame,
and the intersection of the buffer with the page, relative to the page
base. -/
def sliceSpec (pt : Nat → Option Nat) (start finish vpn : Nat) : ByteSlice :=
  ((pt vpn).getD 0,
   max start (vpn * PAGE_SIZE) - vpn * PAGE_SIZE,
   min finish ((vpn + 1) * PAGE_SIZE) - vpn * PAGE_SIZE)

/-- The consecutive virtual page numbers overlapping `[start, finish)`
(for `start < finish`). -/
def pageRange (start finish : Nat) : List Nat :=
  List.range' (start / PAGE_SIZE)
    ((finish - 1) / PAGE_SIZE + 1 - start / PAGE_SIZE)

/-! ## easy-fs bitmap (src/easy-fs/src/bitmap.rs) -/

/-- Modelled from the spec: `BLOCK_SZ` from the missing
`src/easy-fs/src/lib.rs` — "Block size 512". -/
def BLOCK_SZ : Nat := 512

/-- `BLOCK_BITS` from `src/easy-fs/src/bitmap.rs`: `BLOCK_SZ * 8`. -/
def BLOCK_BITS : Nat := BLOCK_SZ * 8

/-- `u64::MAX`. -/
def U64MAX : Nat := 2 ^ 64 - 1

/-- `u64::trailing_ones`, computed over the 64 bits of the word from the
least significant end. -/
def trailingOnesAux : Nat → Nat → Nat
  | _, 0 => 0
  | x, fuel + 1 => if x % 2 = 1 then trailingOnesAux (x / 2) fuel + 1 else 0

/-- `u64::trailing_ones` for a word `x < 2^64`. -/
def trailing_ones (x : Nat) : Nat := trailingOnesAux x 64

/-- The bitmap's disk blocks, each a `BitmapBlock = [u64; 64]`, indexed by
absolute block id.  This stands for the block-cache-mediated storage
(`get_block_cache(..).lock().modify(0, ..)`) that `Bitmap` operates on. -/
def BitmapDisk := Nat → List Nat

/-- `Bitmap` from `src/easy-fs/src/bitmap.rs`. -/
structure Bitmap where
  start_block_id : Nat
  blocks : Nat

/-- The closure passed to `modify` inside `Bitmap::alloc`: find the first
word `≠ u64::MAX` (with its position), set its lowest clear bit (found by
`trailing_ones`), and return the bit index within the block. -/
def allocInBlock (ws : List Nat) : Option (Nat × List Nat) :=
  match findFirstIdx (fun w => decide (w ≠ U64MAX)) 0 ws with
  | some (pos, w) =>
      some (pos * 64 + trailing_ones w,
        ws.set pos (w ||| (1 <<< trailing_ones w)))
  | none => none

/-- The `for block_id in 0..self.blocks` loop of `Bitmap::alloc`: try each
block in order, returning the absolute bit index and the updated storage on
the first success. -/
def Bitmap.allocGo (bm : Bitmap) (disk : BitmapDisk) :
    List Nat → Option (Nat × BitmapDisk)
  | [] => none
  | bid :: rest =>
    match allocInBlock (disk (bid + bm.start_block_id)) with
    | some (pos, ws) =>
        some (bid * BLOCK_BITS + pos,
          fun b => if b = bid + bm.start_block_id then ws else disk b)
    | none => bm.allocGo disk rest

/-- `Bitmap::alloc` from `src/easy-fs/src/bitmap.rs`. -/
def Bitmap.alloc (bm : Bitmap) (disk : BitmapDisk) :
    Option (Nat × BitmapDisk) :=
  bm.allocGo disk (List.range bm.blocks)

/-- `decomposition` from `src/easy-fs/src/bitmap.rs`:
`(block_pos, bits64_pos, inner_pos)`. -/
def decomposition (bit : Nat) : Nat × Nat × Nat :=
  (bit / BLOCK_BITS, bit % BLOCK_BITS / 64, bit % BLOCK_BITS % 64)

/-- `Bitmap::dealloc` from `src/easy-fs/src/bitmap.rs`: locate the bit,
assert it is set (`none` models the failed `assert!`, a panic), and clear
it by subtraction. -/
def Bitmap.dealloc (bm : Bitmap) (disk : BitmapDisk) (bit : Nat) :
    Option BitmapDisk :=
  let bp := decomposition bit
  let ws := disk (bp.1 + bm.start_block_id)
  let w := ws.getD bp.2.1 0
  if w &&& (1 <<< bp.2.2) > 0 then
    some (fun b =>
      if b = bp.1 + bm.start_block_id then
        ws.set bp.2.1 (w - (1 <<< bp.2.2))
      else disk b)
  else none

/-- `Bitmap::maximum`. -/
def Bitmap.maximum (bm : Bitmap) : Nat := bm.blocks * BLOCK_BITS

/-- The word array of a bitmap block in which exactly the first `k` bits
are set: full words below `k / 64`, the partial word `2^(k%64) - 1` at
`k / 64`, zeros above. -/
def fpWord (k j : Nat) : Nat :=
  if j < k / 64 then U64MAX else if j = k / 64 then 2 ^ (k % 64) - 1 else 0

/-- The bitmap block whose first `k` bits are set. -/
def fpBlock (k : Nat) : List Nat := (List.range 64).map (fpWord k)

/-- The storage of a one-block bitmap whose first `k` bits are set
(other blocks empty). -/
def fpDisk (k : Nat) : BitmapDisk :=
  fun b => if b = 0 then fpBlock k else fpBlock 0

/-- The one-block bitmap at start block 0 used by the spec's scenario 6. -/
def bm1 : Bitmap := ⟨0, 1⟩

/-- Well-formedness of bitmap storage: each block is 64 u64 words. -/
def BitmapWF (disk : BitmapDisk) : Prop :=
  ∀ b, (disk b).length = 64 ∧ ∀ w ∈ disk b, w < 2 ^ 64

/-! ## Block cache (src/easy-fs/src/block_cache.rs) -/

/-- The 512-byte content of one disk block, kept abstract as a byte list. -/
abbrev Block := List Nat

/-- `BLOCK_CACHE_SIZE` from `src/easy-fs/src/block_cache.rs`. -/
def BLOCK_CACHE_SIZE : Nat := 16

/-- One queue entry of the cache manager: a `BlockCache` (`block_id`,
`cache` buffer, `modified` dirty bit) together with the `Arc` strong count
of its shared handle (the manager's own reference included, as
`Arc::strong_count` reports it). -/
structure CacheEntry where
  block_id : Nat
  cache : Block
  modified : Bool
  refCount : Nat
deriving DecidableEq, Repr

/-- `BlockCacheManager` from `src/easy-fs/src/block_cache.rs`: the FIFO
queue of cached blocks, together with the backing block device contents. -/
structure BlockCacheManager where
  queue : List CacheEntry
  disk : Nat → Block

/-- `BlockCache::sync` (also run by `Drop`): write the buffer back to the
device iff the dirty bit is set. -/
def writeBack (e : CacheEntry) (disk : Nat → Block) : Nat → Block :=
  if e.modified then (fun b => if b = e.block_id then e.cache else disk b)
  else disk

/-- `BlockCacheManager::get_block_cache`: if an entry for `bid` is present
return a clone of its handle (strong count +1); otherwise, if the queue
holds `BLOCK_CACHE_SIZE` entries, drain the first entry whose strong count
is exactly 1 (its drop syncs it back to the device) — `none` models the
`panic!("Run out of BlockCache!")` when every entry is held elsewhere —
then load the block from the device and push a fresh entry (strong count
2: the queue's clone plus the returned handle). -/
def get_block_cache (bid : Nat) (m : BlockCacheManager) :
    Option BlockCacheManager :=
  match m.queue.find? (fun e => e.block_id == bid) with
  | some _ =>
      some { m with
        queue := m.queue.map (fun e =>
          if e.block_id == bid then { e with refCount := e.refCount + 1 }
          else e) }
  | none =>
      match (if m.queue.length = BLOCK_CACHE_SIZE then
               match findFirstIdx (fun e => e.refCount == 1) 0 m.queue with
               | some (idx, e) => some (m.queue.eraseIdx idx, writeBack e m.disk)
               | none => none
             else some (m.queue, m.disk)) with
      | none => none
      | some (q, d) =>
          some { queue := q ++ [⟨bid, d bid, false, 2⟩], disk := d }

/-- Dropping the handle returned by `get_block_cache` at the end of a
statement (`get_block_cache(..).lock()....`): the entry's strong count
decreases by one. -/
def dropHandle (bid : Nat) (m : BlockCacheManager) : BlockCacheManager :=
  { m with
    queue := m.queue.map (fun e =>
      if e.block_id == bid then { e with refCount := e.refCount - 1 }
      else e) }

/-- `BlockCache::modify(offset, f)` on the held handle: apply `f` to the
cached buffer and set the dirty bit. -/
def applyModify (bid : Nat) (f : Block → Block) (m : BlockCacheManager) :
    BlockCacheManager :=
  { m with
    queue := m.queue.map (fun e =>
      if e.block_id == bid then
        { e with cache := f e.cache, modified := true }
      else e) }

/-- `get_block_cache(bid, ..)` followed by dropping the handle. -/
def touchBlock (bid : Nat) (m : BlockCacheManager) :
    Option BlockCacheManager :=
  (get_block_cache bid m).map (dropHandle bid)

/-- `get_block_cache(bid, ..).lock().modify(offset, f)` and handle drop:
a write of new data to block `bid` through the cache. -/
def mutateBlock (bid : Nat) (f : Block → Block) (m : BlockCacheManager) :
    Option BlockCacheManager :=
  (get_block_cache bid m).map (fun m' => dropHandle bid (applyModify bid f m'))

/-- The first queue entry for `bid`. -/
def entryFor (bid : Nat) (m : BlockCacheManager) : Option CacheEntry :=
  m.queue.find? (fun e => e.block_id == bid)

/-- `get_block_cache(bid, ..).lock().read(0, |b| *b)` and handle drop:
a read of block `bid` through the cache. -/
def readBlock (bid : Nat) (m : BlockCacheManager) :
    Option (Block × BlockCacheManager) :=
  (get_block_cache bid m).map (fun m' =>
    (((entryFor bid m').map CacheEntry.cache).getD [], dropHandle bid m'))

/-- `block_cache_sync_all`: sync every cached block in queue order
(write back iff dirty, clear the dirty bit). -/
def syncAll (m : BlockCacheManager) : BlockCacheManager :=
  { queue := m.queue.map (fun e => { e with modified := false }),
    disk := m.queue.foldl (fun d e => writeBack e d) m.disk }

/-- The block-cache operations a client may interleave between a write and
a later read of block `b`: looking up any block (forcing loads and
evictions), typed writes to other blocks, and explicit sync. -/
inductive CacheOp
  | touch (bid : Nat)
  | mutate (bid : Nat) (f : Block → Block)
  | sync

/-- Run one cache operation (`none` models the eviction `panic!`). -/
def runOp (m : BlockCacheManager) : CacheOp → Option BlockCacheManager
  | .touch bid => touchBlock bid m
  | .mutate bid f => mutateBlock bid f m
  | .sync => some (syncAll m)

/-- Run a sequence of cache operations. -/
def runOps (m : BlockCacheManager) : List CacheOp → Option BlockCacheManager
  | [] => some m
  | op :: ops =>
      match runOp m op with
      | none => none
      | some m' => runOps m' ops

/-- `op` does not write block `b`. -/
def notWrites (op : CacheOp) (b : Nat) : Prop :=
  match op with
  | .mutate b' _ => b' ≠ b
  | _ => True

/-- Queue well-formedness: cached block ids are pairwise distinct (the
manager never inserts a block that is already present). -/
def CacheWF (m : BlockCacheManager) : Prop :=
  (m.queue.map CacheEntry.block_id).Nodup

/-- Between client operations every handle has been dropped, so each
entry's strong count is exactly the manager's one reference. -/
def Unpinned (m : BlockCacheManager) : Prop :=
  ∀ e ∈ m.queue, e.refCount = 1

/-- Cache coherence for block `b` with respect to content `B`: either `b`
is cached with buffer `B` (and, when clean, the device also holds `B`), or
it is not cached and the device holds `B`. -/
def Coh (m : BlockCacheManager) (b : Nat) (B : Block) : Prop :=
  match entryFor b m with
  | some e => e.cache = B ∧ (e.modified = true ∨ m.disk b = B)
  | none => m.disk b = B

/-! ## Helper lemmas about `findFirstIdx` -/

theorem findFirstIdx_none_iff {α : Type} (p : α → Bool) (i : Nat) (l : List α) :
    findFirstIdx p i l = none ↔ ∀ a ∈ l, p a = false := by
  induction l generalizing i with
  | nil => simp [findFirstIdx]
  | cons a as ih =>
    by_cases h : p a
    · simp [findFirstIdx, h]
    · simp only [findFirstIdx, h, if_false, Bool.false_eq_true, ih (i + 1),
        List.mem_cons]
      constructor
      · rintro hall b (rfl | hb)
        · simpa using h
        · exact hall b hb
      · intro hall b hb
        exact hall b (Or.inr hb)

theorem findFirstIdx_some {α : Type} (p : α → Bool) (i : Nat) (l : List α)
    (j : Nat) (a : α) (h : findFirstIdx p i l = some (j, a)) :
    ∃ k, j = i + k ∧ l.get? k = some a ∧ p a = true ∧
      ∀ k' b, k' < k → l.get? k' = some b → p b = false := by
  induction l generalizing i j with
  | nil => simp [findFirstIdx] at h
  | cons x xs ih =>
    by_cases hx : p x
    · simp only [findFirstIdx, hx, if_true, Option.some.injEq, Prod.mk.injEq] at h
      refine ⟨0, by omega, ?_, ?_, ?_⟩
      · simp [h.2]
      · rw [← h.2]; exact hx
      · intro k' b hk' _; omega
    · simp only [findFirstIdx, hx, if_false] at h
      obtain ⟨k, hk, hget, hp, hbefore⟩ := ih (i + 1) j h
      refine ⟨k + 1, by omega, by simpa using hget, hp, ?_⟩
      intro k' b hk' hget'
      match k' with
      | 0 =>
        simp only [List.get?] at hget'
        cases hget'
        simpa using hx
      | k' + 1 =>
        exact hbefore k' b (by omega) (by simpa using hget')

theorem findFirstIdx_eq_some {α : Type} (p : α → Bool) (i : Nat) (l : List α)
    (k : Nat) (a : α) (hk : l.get? k = some a) (hp : p a = true)
    (hbefore : ∀ k' b, k' < k → l.get? k' = some b → p b = false) :
    findFirstIdx p i l = some (i + k, a) := by
  induction l generalizing i k with
  | nil => simp at hk
  | cons x xs ih =>
    match k with
    | 0 =>
      simp only [List.get?] at hk
      cases hk
      simp [findFirstIdx, hp]
    | k + 1 =>
      have hx : p x = false := hbefore 0 x (by omega) (by simp)
      simp only [findFirstIdx, hx, Bool.false_eq_true, if_false]
      have := ih (i + 1) k (by simpa using hk)
        (fun k' b hk' hget' => hbefore (k' + 1) b (by omega) (by simpa using hget'))
      rw [this]
      simp only [Option.some.injEq, Prod.mk.injEq]
      exact ⟨by omega, trivial⟩

/-! ## Claim theorems -/

/-- C1: for every `waitpid(pid, code-out-ptr)` call (with `code-out-ptr`
mapped writable, so the write through it is well defined): if no child
matches `pid` (`-1` matching any child) the call returns `-1` and the
children list is unchanged; if children match but none is a zombie the call
returns `-2` and the children list is unchanged; otherwise one matching
zombie child (the first such) is removed from the children list, its exit
code is written through `code-out-ptr`, and its pid is returned. -/
theorem sys_waitpid_spec (pid : Int) (children : List ChildProc) :
    ((∀ c ∈ children, childMatches pid c = false) →
      sys_waitpid pid children = (-1, children, none))
    ∧ ((∃ c ∈ children, childMatches pid c = true) →
       (∀ c ∈ children, childMatches pid c = true → c.isZombie = false) →
      sys_waitpid pid children = (-2, children, none))
    ∧ ((∃ c ∈ children, childMatches pid c = true ∧ c.isZombie = true) →
      ∃ k c, children.get? k = some c ∧ childMatches pid c = true ∧
        c.isZombie = true ∧
        sys_waitpid pid children =
          ((c.cpid : Int), children.eraseIdx k, some c.exitCode)) := by
  refine ⟨?_, ?_, ?_⟩
  · intro hnone
    have : children.any (fun p => childMatches pid p) = false := by
      simp only [List.any_eq_false]
      intro c hc
      simp [hnone c hc]
    simp [sys_waitpid, this]
  · intro ⟨c, hc, hmatch⟩ hnoz
    have hany : children.any (fun p => childMatches pid p) = true :=
      List.any_eq_true.mpr ⟨c, hc, hmatch⟩
    have hfind :
        findFirstIdx (fun p => p.isZombie && childMatches pid p) 0 children
          = none := by
      rw [findFirstIdx_none_iff]
      intro a ha
      by_cases hm : childMatches pid a = true
      · simp [hnoz a ha hm]
      · simp [Bool.eq_false_iff.mpr hm]
    simp [sys_waitpid, hany, hfind]
  · intro ⟨c, hc, hmatch, hz⟩
    have hany : children.any (fun p => childMatches pid p) = true :=
      List.any_eq_true.mpr ⟨c, hc, hmatch⟩
    have hex : findFirstIdx (fun p => p.isZombie && childMatches pid p) 0
        children ≠ none := by
      rw [Ne, findFirstIdx_none_iff]
      push_neg
      exact ⟨c, hc, by simp [hmatch, hz]⟩
    obtain ⟨⟨idx, child⟩, hfind⟩ := Option.ne_none_iff_exists'.mp hex
    obtain ⟨k, hk, hget, hp, -⟩ := findFirstIdx_some _ _ _ _ _ hfind
    rw [Nat.zero_add] at hk
    subst hk
    simp only [Bool.and_eq_true] at hp
    refine ⟨idx, child, by simpa using hget, hp.2, hp.1, ?_⟩
    simp [sys_waitpid, hany, hfind]

/-- Witness for C1 at concrete inputs: a lone zombie child with pid 3 and
exit code 42 is reaped, and with no children the call returns `-1`. -/
theorem sys_waitpid_spec_witness :
    sys_waitpid (-1) ([] : List ChildProc) = (-1, [], none) :=
  (sys_waitpid_spec (-1) []).1 (by intro c hc; simp at hc)

/-- C2 (code bug): `trap_handler` never invokes `handle_signals` on any
trap cause; in particular a user-mode syscall trap (`UserEnvCall`) dispatches
the syscall and goes straight to `trap_return`, contradicting the spec's
"Before returning to user mode the handler runs handle_signals". -/
theorem trap_handler_never_runs_handle_signals :
    trap_handler TrapCause.userEnvCall =
      [KernelStep.setKernelTrapEntry, KernelStep.syscallDispatch,
       KernelStep.trapReturn]
    ∧ ∀ cause,
        (trap_handler cause).contains KernelStep.handleSignalsStep = false := by
  refine ⟨rfl, ?_⟩
  intro cause
  cases cause <;> rfl

/-- C3 (code bug): `sys_write` with an fd other than `FD_STDOUT` and
`sys_read` with an fd other than `FD_STDIN` hit `panic!` in the kernel
instead of returning `-1`; evaluated at the unsupported fd 2. -/
theorem sys_write_read_bad_fd_panics :
    sys_write 2 16 = SysResult.panicked
    ∧ sys_read 2 1 = SysResult.panicked
    ∧ (∀ fd len, fd ≠ FD_STDOUT → sys_write fd len = SysResult.panicked)
    ∧ (∀ fd len, fd ≠ FD_STDIN → sys_read fd len = SysResult.panicked) := by
  refine ⟨rfl, rfl, ?_, ?_⟩
  · intro fd len h
    simp [sys_write, h]
  · intro fd len h
    simp [sys_read, h]

/-! ## Lemmas about the block cache -/

theorem find?_map_id_preserving (g : CacheEntry → CacheEntry)
    (hg : ∀ e, (g e).block_id = e.block_id) (b : Nat) (q : List CacheEntry) :
    (q.map g).find? (fun e => e.block_id == b) =
      (q.find? (fun e => e.block_id == b)).map g := by
  rw [List.find?_map]
  have hp : ((fun e : CacheEntry => e.block_id == b) ∘ g)
      = (fun e : CacheEntry => e.block_id == b) := by
    funext e
    simp [Function.comp, hg e]
  rw [hp]

theorem touchBlock_present (b' : Nat) (m : BlockCacheManager) (e : CacheEntry)
    (h : entryFor b' m = some e) : touchBlock b' m = some m := by
  rw [touchBlock, get_block_cache]
  rw [entryFor] at h
  rw [h]
  simp only [Option.map_some']
  congr 1
  obtain ⟨q, d⟩ := m
  simp only [dropHandle, List.map_map, BlockCacheManager.mk.injEq, and_true]
  refine (List.map_congr_left ?_).trans (List.map_id q)
  intro x _
  by_cases hx : x.block_id == b' <;> simp [Function.comp, hx]

theorem mutateBlock_present (b' : Nat) (f : Block → Block)
    (m : BlockCacheManager) (e : CacheEntry) (h : entryFor b' m = some e) :
    mutateBlock b' f m = some { m with
      queue := m.queue.map (fun e =>
        if e.block_id == b' then
          { e with cache := f e.cache, modified := true }
        else e) } := by
  rw [mutateBlock, get_block_cache]
  rw [entryFor] at h
  rw [h]
  simp only [Option.map_some']
  congr 1
  obtain ⟨q, d⟩ := m
  simp only [dropHandle, applyModify, List.map_map,
    BlockCacheManager.mk.injEq, and_true]
  refine List.map_congr_left ?_
  intro x _
  by_cases hx : x.block_id == b' <;> simp [Function.comp, hx]

theorem readBlock_present (b' : Nat) (m : BlockCacheManager) (e : CacheEntry)
    (h : entryFor b' m = some e) : readBlock b' m = some (e.cache, m) := by
  rw [readBlock, get_block_cache]
  rw [entryFor] at h
  rw [h]
  simp only [Option.map_some']
  have hdrop :
      dropHandle b' { m with
        queue := m.queue.map (fun e =>
          if e.block_id == b' then { e with refCount := e.refCount + 1 }
          else e) } = m := by
    obtain ⟨q, d⟩ := m
    simp only [dropHandle, List.map_map, BlockCacheManager.mk.injEq, and_true]
    refine (List.map_congr_left ?_).trans (List.map_id q)
    intro x _
    by_cases hx : x.block_id == b' <;> simp [Function.comp, hx]
  have hfind : entryFor b' { m with
      queue := m.queue.map (fun e =>
        if e.block_id == b' then { e with refCount := e.refCount + 1 }
        else e) } = some { e with refCount := e.refCount + 1 } := by
    rw [entryFor]
    rw [find?_map_id_preserving _
      (fun e => by by_cases hx : e.block_id == b' <;> simp [hx]) b' m.queue]
    rw [h]
    have hpe := List.find?_some (p := fun e : CacheEntry => e.block_id == b') h
    simp only [] at hpe
    simp [hpe]
    intro hc
    exact absurd (by simpa using hpe) hc
  rw [hfind, hdrop]
  rfl

theorem getBC_absent_notfull (b' : Nat) (m : BlockCacheManager)
    (h : entryFor b' m = none) (hlen : m.queue.length ≠ BLOCK_CACHE_SIZE) :
    get_block_cache b' m = some { queue := m.queue ++
      [⟨b', m.disk b', false, 2⟩], disk := m.disk } := by
  rw [get_block_cache]
  rw [entryFor] at h
  rw [h, if_neg hlen]

theorem getBC_absent_full (b' : Nat) (m : BlockCacheManager)
    (e0 : CacheEntry) (rest : List CacheEntry)
    (h : entryFor b' m = none) (hq : m.queue = e0 :: rest)
    (hlen : m.queue.length = BLOCK_CACHE_SIZE) (hunp : Unpinned m) :
    get_block_cache b' m = some
      { queue := rest ++ [⟨b', writeBack e0 m.disk b', false, 2⟩],
        disk := writeBack e0 m.disk } := by
  rw [get_block_cache]
  rw [entryFor] at h
  rw [h, if_pos hlen]
  have h0 : e0.refCount = 1 := hunp e0 (by rw [hq]; exact List.mem_cons_self _ _)
  have hfind : findFirstIdx (fun e => e.refCount == 1) 0 m.queue
      = some (0, e0) := by
    rw [hq, findFirstIdx]
    simp [h0]
  rw [hfind, hq]
  rfl

theorem dropHandle_append_fresh (b' : Nat) (q : List CacheEntry)
    (hq : ∀ e ∈ q, e.block_id ≠ b') (c : Block) (mo : Bool) (d : Nat → Block) :
    dropHandle b' { queue := q ++ [⟨b', c, mo, 2⟩], disk := d } =
      { queue := q ++ [⟨b', c, mo, 1⟩], disk := d } := by
  simp only [dropHandle, List.map_append, BlockCacheManager.mk.injEq, and_true]
  refine congrArg₂ (· ++ ·)
    ((List.map_congr_left ?_).trans (List.map_id q)) (by simp)
  intro x hx
  simp [show (x.block_id == b') = false by simpa using hq x hx]

theorem applyModify_append_fresh (b' : Nat) (f : Block → Block)
    (q : List CacheEntry) (hq : ∀ e ∈ q, e.block_id ≠ b') (c : Block)
    (d : Nat → Block) :
    applyModify b' f { queue := q ++ [⟨b', c, false, 2⟩], disk := d } =
      { queue := q.map (fun e =>
          if e.block_id == b' then
            { e with cache := f e.cache, modified := true } else e)
        ++ [⟨b', f c, true, 2⟩], disk := d } := by
  simp only [applyModify, List.map_append, BlockCacheManager.mk.injEq,
    and_true]
  simp

theorem applyModify_append_fresh_absent (b' : Nat) (f : Block → Block)
    (q : List CacheEntry) (hq : ∀ e ∈ q, e.block_id ≠ b') (c : Block)
    (d : Nat → Block) :
    applyModify b' f { queue := q ++ [⟨b', c, false, 2⟩], disk := d } =
      { queue := q ++ [⟨b', f c, true, 2⟩], disk := d } := by
  rw [applyModify_append_fresh b' f q hq c d]
  congr 1
  refine congrArg (· ++ _) ?_
  refine (List.map_congr_left ?_).trans (List.map_id q)
  intro x hx
  simp [show (x.block_id == b') = false by simpa using hq x hx]

theorem writeBack_at_ne (e : CacheEntry) (d : Nat → Block) (b : Nat)
    (h : e.block_id ≠ b) : writeBack e d b = d b := by
  unfold writeBack
  by_cases hm : e.modified
  · rw [if_pos hm]
    show (if b = e.block_id then e.cache else d b) = d b
    rw [if_neg (fun hc => h hc.symm)]
  · rw [if_neg hm]

theorem writeBack_at_self (e : CacheEntry) (d : Nat → Block) (b : Nat)
    (h : e.block_id = b) (hm : e.modified = true) :
    writeBack e d b = e.cache := by
  unfold writeBack
  rw [if_pos hm]
  show (if b = e.block_id then e.cache else d b) = e.cache
  rw [if_pos h.symm]

theorem writeBack_clean (e : CacheEntry) (d : Nat → Block)
    (hm : e.modified = false) : writeBack e d = d := by
  unfold writeBack
  rw [hm]
  simp

theorem foldl_writeBack_no_b (es : List CacheEntry) (d : Nat → Block)
    (b : Nat) (h : ∀ e ∈ es, e.block_id ≠ b) :
    (es.foldl (fun acc e => writeBack e acc) d) b = d b := by
  induction es generalizing d with
  | nil => rfl
  | cons e0 rest ih =>
    simp only [List.foldl_cons]
    rw [ih _ (fun e he => h e (List.mem_cons_of_mem _ he))]
    exact writeBack_at_ne e0 d b (h e0 (List.mem_cons_self _ _))

theorem foldl_writeBack_coh (es : List CacheEntry) (d : Nat → Block)
    (b : Nat) (B : Block) (hnd : (es.map CacheEntry.block_id).Nodup)
    (hcoh : match es.find? (fun e => e.block_id == b) with
            | some e => e.cache = B ∧ (e.modified = true ∨ d b = B)
            | none => d b = B) :
    (es.foldl (fun acc e => writeBack e acc) d) b = B := by
  induction es generalizing d with
  | nil => simpa using hcoh
  | cons e0 rest ih =>
    simp only [List.foldl_cons]
    have hnd' : (∀ x ∈ rest, ¬ x.block_id = e0.block_id) ∧
        (rest.map CacheEntry.block_id).Nodup := by simpa using hnd
    by_cases h0 : e0.block_id = b
    · rw [List.find?_cons_of_pos _ (by simp [h0])] at hcoh
      obtain ⟨hcache, hmod⟩ := hcoh
      have hrest : ∀ e ∈ rest, e.block_id ≠ b := by
        intro e he hc
        exact hnd'.1 e he (by rw [hc, h0])
      rw [foldl_writeBack_no_b rest _ b hrest]
      by_cases hm : e0.modified
      · rw [writeBack_at_self e0 d b h0 hm]
        exact hcache
      · rw [writeBack_clean e0 d (by simpa using hm)]
        exact hmod.resolve_left (by simp [hm])
    · rw [List.find?_cons_of_neg _ (by simp [h0])] at hcoh
      have hd : writeBack e0 d b = d b := writeBack_at_ne e0 d b h0
      refine ih (writeBack e0 d) hnd'.2 ?_
      cases hr : rest.find? (fun e => e.block_id == b) with
      | some e =>
        rw [hr] at hcoh
        simp only [hr]
        exact ⟨hcoh.1, hcoh.2.imp (fun h => h) (fun h => by rw [hd]; exact h)⟩
      | none =>
        rw [hr] at hcoh
        simp only [hr]
        rw [hd]
        exact hcoh

theorem syncAll_preserves (m : BlockCacheManager) (b : Nat) (B : Block)
    (hwf : CacheWF m) (hunp : Unpinned m) (hcoh : Coh m b B) :
    CacheWF (syncAll m) ∧ Unpinned (syncAll m) ∧ Coh (syncAll m) b B := by
  have hdisk : (syncAll m).disk b = B := by
    unfold Coh entryFor at hcoh
    exact foldl_writeBack_coh m.queue m.disk b B hwf hcoh
  refine ⟨?_, ?_, ?_⟩
  · unfold CacheWF syncAll
    simp only [List.map_map]
    exact (List.map_congr_left (fun e _ => rfl) :
      _ = m.queue.map CacheEntry.block_id) ▸ hwf
  · intro e he
    simp only [syncAll, List.mem_map] at he
    obtain ⟨e', he', rfl⟩ := he
    exact hunp e' he'
  · unfold Coh entryFor at hcoh ⊢
    show (match (m.queue.map (fun e => { e with modified := false })).find?
        (fun e => e.block_id == b) with
      | some e => e.cache = B ∧ (e.modified = true ∨ (syncAll m).disk b = B)
      | none => (syncAll m).disk b = B)
    rw [find?_map_id_preserving (fun e => { e with modified := false })
      (fun e => rfl) b m.queue]
    cases hf : m.queue.find? (fun e => e.block_id == b) with
    | some e =>
      rw [hf] at hcoh
      exact ⟨hcoh.1, Or.inr hdisk⟩
    | none => exact hdisk

theorem coh_append_fresh (q : List CacheEntry) (d : Nat → Block)
    (b bid : Nat) (B : Block) (fresh : CacheEntry)
    (hcoh : Coh ⟨q, d⟩ b B) (hfid : fresh.block_id = bid)
    (hfresh : bid = b → fresh.cache = B ∧ (fresh.modified = true ∨ d b = B)) :
    Coh ⟨q ++ [fresh], d⟩ b B := by
  unfold Coh entryFor at hcoh ⊢
  simp only [List.find?_append]
  cases hf : q.find? (fun e => e.block_id == b) with
  | some e =>
    rw [hf] at hcoh
    simpa using hcoh
  | none =>
    rw [hf] at hcoh
    simp only [Option.none_or]
    by_cases hbid : bid = b
    · have hsing : List.find? (fun e => e.block_id == b) [fresh]
          = some fresh := by simp [hfid, hbid]
      rw [hsing]
      exact hfresh hbid
    · have hsing : List.find? (fun e => e.block_id == b) [fresh]
          = none := by simp [hfid, hbid]
      rw [hsing]
      exact hcoh

theorem coh_after_drop_head (m : BlockCacheManager) (e0 : CacheEntry)
    (rest : List CacheEntry) (b : Nat) (B : Block)
    (hq : m.queue = e0 :: rest) (hwf : CacheWF m) (hcoh : Coh m b B) :
    Coh ⟨rest, writeBack e0 m.disk⟩ b B := by
  unfold Coh entryFor at hcoh ⊢
  rw [hq] at hcoh
  by_cases h0 : e0.block_id = b
  · rw [List.find?_cons_of_pos _ (by simp [h0])] at hcoh
    have hnd := hwf
    rw [CacheWF, hq] at hnd
    have hnd2 : (∀ x ∈ rest, ¬ x.block_id = e0.block_id) ∧
        (rest.map CacheEntry.block_id).Nodup := by simpa using hnd
    have hrest : rest.find? (fun e => e.block_id == b) = none := by
      rw [List.find?_eq_none]
      intro e he
      simp only [beq_iff_eq]
      intro hc
      exact hnd2.1 e he (by rw [hc, h0])
    rw [hrest]
    show writeBack e0 m.disk b = B
    obtain ⟨hcache, hmod⟩ := hcoh
    by_cases hm : e0.modified
    · rw [writeBack_at_self e0 m.disk b h0 hm]
      exact hcache
    · rw [writeBack_clean e0 m.disk (by simpa using hm)]
      exact hmod.resolve_left (by simp [hm])
  · rw [List.find?_cons_of_neg _ (by simp [h0])] at hcoh
    have hd : writeBack e0 m.disk b = m.disk b := writeBack_at_ne e0 m.disk b h0
    cases hr : rest.find? (fun e => e.block_id == b) with
    | some e =>
      rw [hr] at hcoh
      simp only [hr]
      exact ⟨hcoh.1, hcoh.2.imp (fun h => h) (fun h => by rw [hd]; exact h)⟩
    | none =>
      rw [hr] at hcoh
      simp only [hr]
      rw [hd]
      exact hcoh

theorem map_block_id_map (g : CacheEntry → CacheEntry)
    (hg : ∀ e, (g e).block_id = e.block_id) (q : List CacheEntry) :
    (q.map g).map CacheEntry.block_id = q.map CacheEntry.block_id := by
  rw [List.map_map]
  exact List.map_congr_left (fun e _ => hg e)

theorem coh_map_upd (m : BlockCacheManager) (b bid : Nat) (B : Block)
    (f : Block → Block) (hbidb : bid ≠ b) (hcoh : Coh m b B) :
    Coh { m with queue := m.queue.map (fun e =>
      if e.block_id == bid then
        { e with cache := f e.cache, modified := true }
      else e) } b B := by
  unfold Coh entryFor at hcoh ⊢
  show (match (m.queue.map (fun e =>
      if e.block_id == bid then
        { e with cache := f e.cache, modified := true }
      else e)).find? (fun e => e.block_id == b) with
    | some e => e.cache = B ∧ (e.modified = true ∨ m.disk b = B)
    | none => m.disk b = B)
  rw [find?_map_id_preserving (fun e =>
      if e.block_id == bid then
        { e with cache := f e.cache, modified := true }
      else e)
    (fun e => by by_cases hx : e.block_id == bid <;> simp [hx]) b m.queue]
  cases hf : m.queue.find? (fun e => e.block_id == b) with
  | some eb =>
    rw [hf] at hcoh
    have hebid := List.find?_some (p := fun e : CacheEntry =>
      e.block_id == b) hf
    simp only [] at hebid
    have hne : (eb.block_id == bid) = false := by
      have heb : eb.block_id = b := by simpa using hebid
      simp [heb, Ne.symm hbidb]
    simp only [Option.map_some', hne, Bool.false_eq_true, if_false]
    exact ⟨hcoh.1, hcoh.2⟩
  | none =>
    rw [hf] at hcoh
    simp only [Option.map_none']
    exact hcoh

theorem cacheStep (op : CacheOp) (m : BlockCacheManager) (b : Nat) (B : Block)
    (hwf : CacheWF m) (hunp : Unpinned m) (hcoh : Coh m b B)
    (hop : notWrites op b) :
    ∃ m', runOp m op = some m' ∧ CacheWF m' ∧ Unpinned m' ∧ Coh m' b B := by
  cases op with
  | sync =>
    obtain ⟨h1, h2, h3⟩ := syncAll_preserves m b B hwf hunp hcoh
    exact ⟨syncAll m, rfl, h1, h2, h3⟩
  | touch bid =>
    cases hfind : entryFor bid m with
    | some e =>
      exact ⟨m, by simpa [runOp] using touchBlock_present bid m e hfind,
        hwf, hunp, hcoh⟩
    | none =>
      have habs : ∀ e ∈ m.queue, e.block_id ≠ bid := by
        rw [entryFor, List.find?_eq_none] at hfind
        intro e he
        simpa using hfind e he
      by_cases hlen : m.queue.length = BLOCK_CACHE_SIZE
      · obtain ⟨e0, rest, hq⟩ : ∃ e0 rest, m.queue = e0 :: rest := by
          cases hqq : m.queue with
          | nil => rw [hqq] at hlen; simp [BLOCK_CACHE_SIZE] at hlen
          | cons a l => exact ⟨a, l, rfl⟩
        have hget := getBC_absent_full bid m e0 rest hfind hq hlen hunp
        have hrest_ne : ∀ e ∈ rest, e.block_id ≠ bid := fun e he =>
          habs e (by rw [hq]; exact List.mem_cons_of_mem _ he)
        have hdrop := dropHandle_append_fresh bid rest hrest_ne
          (writeBack e0 m.disk bid) false (writeBack e0 m.disk)
        have hnd := hwf
        rw [CacheWF, hq] at hnd
        have hnd2 : (∀ x ∈ rest, ¬ x.block_id = e0.block_id) ∧
            (rest.map CacheEntry.block_id).Nodup := by simpa using hnd
        refine ⟨⟨rest ++ [⟨bid, writeBack e0 m.disk bid, false, 1⟩],
          writeBack e0 m.disk⟩, ?_, ?_, ?_, ?_⟩
        · show touchBlock bid m = _
          rw [touchBlock, hget, Option.map_some', hdrop]
        · show ((rest ++ [(⟨bid, writeBack e0 m.disk bid, false, 1⟩ :
            CacheEntry)]).map CacheEntry.block_id).Nodup
          rw [List.map_append, List.nodup_append]
          refine ⟨hnd2.2, by simp, ?_⟩
          intro a ha
          simp only [List.mem_map] at ha
          obtain ⟨e, he, rfl⟩ := ha
          simp only [List.map_cons, List.map_nil, List.mem_singleton]
          exact hrest_ne e he
        · intro e he
          rcases List.mem_append.mp he with h1 | h1
          · exact hunp e (by rw [hq]; exact List.mem_cons_of_mem _ h1)
          · simp only [List.mem_singleton] at h1
            rw [h1]
        · have hmid := coh_after_drop_head m e0 rest b B hq hwf hcoh
          refine coh_append_fresh rest (writeBack e0 m.disk) b bid B _
            hmid rfl ?_
          intro hbid
          subst hbid
          have hnone : rest.find? (fun e => e.block_id == bid) = none := by
            rw [List.find?_eq_none]
            intro e he
            simpa using hrest_ne e he
          unfold Coh entryFor at hmid
          rw [hnone] at hmid
          exact ⟨hmid, Or.inr hmid⟩
      · have hget := getBC_absent_notfull bid m hfind hlen
        have hdrop := dropHandle_append_fresh bid m.queue habs (m.disk bid)
          false m.disk
        refine ⟨⟨m.queue ++ [⟨bid, m.disk bid, false, 1⟩], m.disk⟩,
          ?_, ?_, ?_, ?_⟩
        · show touchBlock bid m = _
          rw [touchBlock, hget, Option.map_some', hdrop]
        · show ((m.queue ++ [(⟨bid, m.disk bid, false, 1⟩ :
            CacheEntry)]).map CacheEntry.block_id).Nodup
          rw [List.map_append, List.nodup_append]
          refine ⟨hwf, by simp, ?_⟩
          intro a ha
          simp only [List.mem_map] at ha
          obtain ⟨e, he, rfl⟩ := ha
          simp only [List.map_cons, List.map_nil, List.mem_singleton]
          exact habs e he
        · intro e he
          rcases List.mem_append.mp he with h1 | h1
          · exact hunp e h1
          · simp only [List.mem_singleton] at h1
            rw [h1]
        · refine coh_append_fresh m.queue m.disk b bid B _ hcoh rfl ?_
          intro hbid
          subst hbid
          unfold Coh entryFor at hcoh
          rw [show m.queue.find? (fun e => e.block_id == bid) = none from
            hfind] at hcoh
          exact ⟨hcoh, Or.inr hcoh⟩
  | mutate bid f =>
    have hbidb : bid ≠ b := hop
    cases hfind : entryFor bid m with
    | some e =>
      have hmut := mutateBlock_present bid f m e hfind
      refine ⟨_, hmut, ?_, ?_, ?_⟩
      · show ((m.queue.map _).map CacheEntry.block_id).Nodup
        rw [map_block_id_map _
          (fun e => by by_cases hx : e.block_id = bid <;> simp [hx])]
        exact hwf
      · intro e' he'
        simp only [List.mem_map] at he'
        obtain ⟨x, hx, rfl⟩ := he'
        by_cases hxb : x.block_id = bid <;> simp [hxb, hunp x hx]
      · exact coh_map_upd m b bid B f hbidb hcoh
    | none =>
      have habs : ∀ e ∈ m.queue, e.block_id ≠ bid := by
        rw [entryFor, List.find?_eq_none] at hfind
        intro e he
        simpa using hfind e he
      by_cases hlen : m.queue.length = BLOCK_CACHE_SIZE
      · obtain ⟨e0, rest, hq⟩ : ∃ e0 rest, m.queue = e0 :: rest := by
          cases hqq : m.queue with
          | nil => rw [hqq] at hlen; simp [BLOCK_CACHE_SIZE] at hlen
          | cons a l => exact ⟨a, l, rfl⟩
        have hget := getBC_absent_full bid m e0 rest hfind hq hlen hunp
        have hrest_ne : ∀ e ∈ rest, e.block_id ≠ bid := fun e he =>
          habs e (by rw [hq]; exact List.mem_cons_of_mem _ he)
        have happ := applyModify_append_fresh_absent bid f rest hrest_ne
          (writeBack e0 m.disk bid) (writeBack e0 m.disk)
        have hdrop := dropHandle_append_fresh bid rest hrest_ne
          (f (writeBack e0 m.disk bid)) true (writeBack e0 m.disk)
        have hnd := hwf
        rw [CacheWF, hq] at hnd
        have hnd2 : (∀ x ∈ rest, ¬ x.block_id = e0.block_id) ∧
            (rest.map CacheEntry.block_id).Nodup := by simpa using hnd
        refine ⟨⟨rest ++ [⟨bid, f (writeBack e0 m.disk bid), true, 1⟩],
          writeBack e0 m.disk⟩, ?_, ?_, ?_, ?_⟩
        · show mutateBlock bid f m = _
          rw [mutateBlock, hget, Option.map_some', happ, hdrop]
        · show ((rest ++ [(⟨bid, f (writeBack e0 m.disk bid), true, 1⟩ :
            CacheEntry)]).map CacheEntry.block_id).Nodup
          rw [List.map_append, List.nodup_append]
          refine ⟨hnd2.2, by simp, ?_⟩
          intro a ha
          simp only [List.mem_map] at ha
          obtain ⟨e, he, rfl⟩ := ha
          simp only [List.map_cons, List.map_nil, List.mem_singleton]
          exact hrest_ne e he
        · intro e he
          rcases List.mem_append.mp he with h1 | h1
          · exact hunp e (by rw [hq]; exact List.mem_cons_of_mem _ h1)
          · simp only [List.mem_singleton] at h1
            rw [h1]
        · have hmid := coh_after_drop_head m e0 rest b B hq hwf hcoh
          refine coh_append_fresh rest (writeBack e0 m.disk) b bid B _
            hmid rfl ?_
          intro hbid
          exact absurd hbid hbidb
      · have hget := getBC_absent_notfull bid m hfind hlen
        have happ := applyModify_append_fresh_absent bid f m.queue habs
          (m.disk bid) m.disk
        have hdrop := dropHandle_append_fresh bid m.queue habs
          (f (m.disk bid)) true m.disk
        refine ⟨⟨m.queue ++ [⟨bid, f (m.disk bid), true, 1⟩], m.disk⟩,
          ?_, ?_, ?_, ?_⟩
        · show mutateBlock bid f m = _
          rw [mutateBlock, hget, Option.map_some', happ, hdrop]
        · show ((m.queue ++ [(⟨bid, f (m.disk bid), true, 1⟩ :
            CacheEntry)]).map CacheEntry.block_id).Nodup
          rw [List.map_append, List.nodup_append]
          refine ⟨hwf, by simp, ?_⟩
          intro a ha
          simp only [List.mem_map] at ha
          obtain ⟨e, he, rfl⟩ := ha
          simp only [List.map_cons, List.map_nil, List.mem_singleton]
          exact habs e he
        · intro e he
          rcases List.mem_append.mp he with h1 | h1
          · exact hunp e h1
          · simp only [List.mem_singleton] at h1
            rw [h1]
        · refine coh_append_fresh m.queue m.disk b bid B _ hcoh rfl ?_
          intro hbid
          exact absurd hbid hbidb

theorem runOps_preserve (ops : List CacheOp) (m : BlockCacheManager)
    (b : Nat) (B : Block) (hwf : CacheWF m) (hunp : Unpinned m)
    (hcoh : Coh m b B) (hops : ∀ op ∈ ops, notWrites op b) :
    ∃ m', runOps m ops = some m' ∧ CacheWF m' ∧ Unpinned m' ∧ Coh m' b B := by
  induction ops generalizing m with
  | nil => exact ⟨m, rfl, hwf, hunp, hcoh⟩
  | cons op ops ih =>
    obtain ⟨m1, h1, hw1, hu1, hc1⟩ := cacheStep op m b B hwf hunp hcoh
      (hops op (List.mem_cons_self _ _))
    obtain ⟨m2, h2, hw2, hu2, hc2⟩ := ih m1 hw1 hu1 hc1
      (fun o ho => hops o (List.mem_cons_of_mem _ ho))
    refine ⟨m2, ?_, hw2, hu2, hc2⟩
    rw [runOps, h1]
    exact h2

theorem mutateBlock_init (b : Nat) (f : Block → Block)
    (m : BlockCacheManager) (hwf : CacheWF m) (hunp : Unpinned m) :
    ∃ m1 e1, mutateBlock b f m = some m1 ∧ CacheWF m1 ∧ Unpinned m1 ∧
      entryFor b m1 = some e1 ∧ e1.modified = true ∧ Coh m1 b e1.cache := by
  cases hfind : entryFor b m with
  | some e =>
    have hmut := mutateBlock_present b f m e hfind
    have hpe := List.find?_some (p := fun e : CacheEntry =>
      e.block_id == b) hfind
    simp only [] at hpe
    have hfor : entryFor b { m with queue := m.queue.map (fun e =>
        if e.block_id == b then
          { e with cache := f e.cache, modified := true }
        else e) } = some { e with cache := f e.cache, modified := true } := by
      unfold entryFor
      show (m.queue.map (fun e =>
        if e.block_id == b then
          { e with cache := f e.cache, modified := true }
        else e)).find? (fun e => e.block_id == b) = _
      rw [find?_map_id_preserving (fun e =>
          if e.block_id == b then
            { e with cache := f e.cache, modified := true }
          else e)
        (fun e => by by_cases hx : e.block_id == b <;> simp [hx]) b m.queue]
      rw [show m.queue.find? (fun e => e.block_id == b) = some e from hfind]
      simp [hpe]
      intro hc
      exact absurd (by simpa using hpe) hc
    refine ⟨_, { e with cache := f e.cache, modified := true }, hmut,
      ?_, ?_, hfor, rfl, ?_⟩
    · show ((m.queue.map _).map CacheEntry.block_id).Nodup
      rw [map_block_id_map _
        (fun e => by by_cases hx : e.block_id = b <;> simp [hx])]
      exact hwf
    · intro e' he'
      simp only [List.mem_map] at he'
      obtain ⟨x, hx, rfl⟩ := he'
      by_cases hxb : x.block_id = b <;> simp [hxb, hunp x hx]
    · unfold Coh
      rw [hfor]
      exact ⟨rfl, Or.inl rfl⟩
  | none =>
    have habs : ∀ e ∈ m.queue, e.block_id ≠ b := by
      rw [entryFor, List.find?_eq_none] at hfind
      intro e he
      simpa using hfind e he
    by_cases hlen : m.queue.length = BLOCK_CACHE_SIZE
    · obtain ⟨e0, rest, hq⟩ : ∃ e0 rest, m.queue = e0 :: rest := by
        cases hqq : m.queue with
        | nil => rw [hqq] at hlen; simp [BLOCK_CACHE_SIZE] at hlen
        | cons a l => exact ⟨a, l, rfl⟩
      have hget := getBC_absent_full b m e0 rest hfind hq hlen hunp
      have hrest_ne : ∀ e ∈ rest, e.block_id ≠ b := fun e he =>
        habs e (by rw [hq]; exact List.mem_cons_of_mem _ he)
      have happ := applyModify_append_fresh_absent b f rest hrest_ne
        (writeBack e0 m.disk b) (writeBack e0 m.disk)
      have hdrop := dropHandle_append_fresh b rest hrest_ne
        (f (writeBack e0 m.disk b)) true (writeBack e0 m.disk)
      have hnd := hwf
      rw [CacheWF, hq] at hnd
      have hnd2 : (∀ x ∈ rest, ¬ x.block_id = e0.block_id) ∧
          (rest.map CacheEntry.block_id).Nodup := by simpa using hnd
      have hrestnone : rest.find? (fun e => e.block_id == b) = none := by
        rw [List.find?_eq_none]
        intro e he
        simpa using hrest_ne e he
      have hfor : entryFor b (⟨rest ++
          [⟨b, f (writeBack e0 m.disk b), true, 1⟩],
          writeBack e0 m.disk⟩ : BlockCacheManager) =
          some ⟨b, f (writeBack e0 m.disk b), true, 1⟩ := by
        unfold entryFor
        show (rest ++ [(⟨b, f (writeBack e0 m.disk b), true, 1⟩ :
          CacheEntry)]).find? (fun e => e.block_id == b) = _
        rw [List.find?_append, hrestnone]
        simp
      refine ⟨_, ⟨b, f (writeBack e0 m.disk b), true, 1⟩, ?_, ?_, ?_,
        hfor, rfl, ?_⟩
      · show mutateBlock b f m = _
        rw [mutateBlock, hget, Option.map_some', happ, hdrop]
      · show ((rest ++ [(⟨b, f (writeBack e0 m.disk b), true, 1⟩ :
          CacheEntry)]).map CacheEntry.block_id).Nodup
        rw [List.map_append, List.nodup_append]
        refine ⟨hnd2.2, by simp, ?_⟩
        intro a ha
        simp only [List.mem_map] at ha
        obtain ⟨e, he, rfl⟩ := ha
        simp only [List.map_cons, List.map_nil, List.mem_singleton]
        exact hrest_ne e he
      · intro e he
        rcases List.mem_append.mp he with h1 | h1
        · exact hunp e (by rw [hq]; exact List.mem_cons_of_mem _ h1)
        · simp only [List.mem_singleton] at h1
          rw [h1]
      · unfold Coh
        rw [hfor]
        exact ⟨rfl, Or.inl rfl⟩
    · have hget := getBC_absent_notfull b m hfind hlen
      have happ := applyModify_append_fresh_absent b f m.queue habs
        (m.disk b) m.disk
      have hdrop := dropHandle_append_fresh b m.queue habs
        (f (m.disk b)) true m.disk
      have hqnone : m.queue.find? (fun e => e.block_id == b) = none := hfind
      have hfor : entryFor b (⟨m.queue ++ [⟨b, f (m.disk b), true, 1⟩],
          m.disk⟩ : BlockCacheManager) =
          some ⟨b, f (m.disk b), true, 1⟩ := by
        unfold entryFor
        show (m.queue ++ [(⟨b, f (m.disk b), true, 1⟩ :
          CacheEntry)]).find? (fun e => e.block_id == b) = _
        rw [List.find?_append, hqnone]
        simp
      refine ⟨_, ⟨b, f (m.disk b), true, 1⟩, ?_, ?_, ?_, hfor, rfl, ?_⟩
      · show mutateBlock b f m = _
        rw [mutateBlock, hget, Option.map_some', happ, hdrop]
      · show ((m.queue ++ [(⟨b, f (m.disk b), true, 1⟩ :
          CacheEntry)]).map CacheEntry.block_id).Nodup
        rw [List.map_append, List.nodup_append]
        refine ⟨hwf, by simp, ?_⟩
        intro a ha
        simp only [List.mem_map] at ha
        obtain ⟨e, he, rfl⟩ := ha
        simp only [List.map_cons, List.map_nil, List.mem_singleton]
        exact habs e he
      · intro e he
        rcases List.mem_append.mp he with h1 | h1
        · exact hunp e h1
        · simp only [List.mem_singleton] at h1
          rw [h1]
      · unfold Coh
        rw [hfor]
        exact ⟨rfl, Or.inl rfl⟩

theorem readBlock_final (b : Nat) (B : Block) (m : BlockCacheManager)
    (hwf : CacheWF m) (hunp : Unpinned m) (hcoh : Coh m b B) :
    ∃ m3, readBlock b m = some (B, m3) := by
  cases hfind : entryFor b m with
  | some e =>
    have hread := readBlock_present b m e hfind
    have hcache : e.cache = B := by
      unfold Coh at hcoh
      rw [hfind] at hcoh
      exact hcoh.1
    exact ⟨m, by rw [hread, hcache]⟩
  | none =>
    have habs : ∀ e' ∈ m.queue, e'.block_id ≠ b := by
      rw [entryFor, List.find?_eq_none] at hfind
      intro e' he'
      simpa using hfind e' he'
    have hdisk : m.disk b = B := by
      unfold Coh at hcoh
      rw [hfind] at hcoh
      exact hcoh
    by_cases hlen : m.queue.length = BLOCK_CACHE_SIZE
    · obtain ⟨e0, rest, hq⟩ : ∃ e0 rest, m.queue = e0 :: rest := by
        cases hqq : m.queue with
        | nil => rw [hqq] at hlen; simp [BLOCK_CACHE_SIZE] at hlen
        | cons a l => exact ⟨a, l, rfl⟩
      have hget := getBC_absent_full b m e0 rest hfind hq hlen hunp
      have hrest_ne : ∀ e ∈ rest, e.block_id ≠ b := fun e he =>
        habs e (by rw [hq]; exact List.mem_cons_of_mem _ he)
      have hrestnone : rest.find? (fun e => e.block_id == b) = none := by
        rw [List.find?_eq_none]
        intro e he
        simpa using hrest_ne e he
      have h0ne : e0.block_id ≠ b :=
        habs e0 (by rw [hq]; exact List.mem_cons_self _ _)
      have hdisk' : writeBack e0 m.disk b = B := by
        rw [writeBack_at_ne e0 m.disk b h0ne]
        exact hdisk
      have hfG : entryFor b (⟨rest ++
          [⟨b, writeBack e0 m.disk b, false, 2⟩], writeBack e0 m.disk⟩ :
          BlockCacheManager) =
          some ⟨b, writeBack e0 m.disk b, false, 2⟩ := by
        unfold entryFor
        show (rest ++ [(⟨b, writeBack e0 m.disk b, false, 2⟩ :
          CacheEntry)]).find? (fun e => e.block_id == b) = _
        rw [List.find?_append, hrestnone]
        simp
      refine ⟨dropHandle b ⟨rest ++
        [⟨b, writeBack e0 m.disk b, false, 2⟩], writeBack e0 m.disk⟩, ?_⟩
      rw [readBlock, hget, Option.map_some', hfG]
      rw [show ((some (⟨b, writeBack e0 m.disk b, false, 2⟩ :
        CacheEntry)).map CacheEntry.cache).getD [] =
        writeBack e0 m.disk b from rfl]
      rw [hdisk']
    · have hget := getBC_absent_notfull b m hfind hlen
      have hqnone : m.queue.find? (fun e => e.block_id == b) = none := hfind
      have hfG : entryFor b (⟨m.queue ++ [⟨b, m.disk b, false, 2⟩],
          m.disk⟩ : BlockCacheManager) =
          some ⟨b, m.disk b, false, 2⟩ := by
        unfold entryFor
        show (m.queue ++ [(⟨b, m.disk b, false, 2⟩ :
          CacheEntry)]).find? (fun e => e.block_id == b) = _
        rw [List.find?_append, hqnone]
        simp
      refine ⟨dropHandle b ⟨m.queue ++ [⟨b, m.disk b, false, 2⟩],
        m.disk⟩, ?_⟩
      rw [readBlock, hget, Option.map_some', hfG]
      rw [show ((some (⟨b, m.disk b, false, 2⟩ :
        CacheEntry)).map CacheEntry.cache).getD [] = m.disk b from rfl]
      rw [hdisk]

/-! ## Lemmas about `trailing_ones` and bitmap words -/

theorem trailingOnesAux_spec :
    ∀ fuel x, x < 2 ^ fuel → x ≠ 2 ^ fuel - 1 →
      trailingOnesAux x fuel < fuel ∧
      x.testBit (trailingOnesAux x fuel) = false ∧
      ∀ i < trailingOnesAux x fuel, x.testBit i = true := by
  intro fuel
  induction fuel with
  | zero => intro x hx hne; simp at hx; omega
  | succ n ih =>
    intro x hx hne
    have h2 : (2 : Nat) ^ (n + 1) = 2 * 2 ^ n := by ring
    by_cases hodd : x % 2 = 1
    · have hdiv : x / 2 < 2 ^ n := by omega
      have hdne : x / 2 ≠ 2 ^ n - 1 := by
        intro hc
        apply hne
        have h1 : (1 : Nat) ≤ 2 ^ n := Nat.one_le_two_pow
        omega
      obtain ⟨hlt, hbit, hall⟩ := ih (x / 2) hdiv hdne
      rw [trailingOnesAux]
      rw [if_pos hodd]
      refine ⟨by omega, ?_, ?_⟩
      · rw [Nat.testBit_succ]
        exact hbit
      · intro i hi
        match i with
        | 0 => simp [Nat.testBit_zero, hodd]
        | i + 1 =>
          rw [Nat.testBit_succ]
          exact hall i (by omega)
    · rw [trailingOnesAux, if_neg hodd]
      refine ⟨by omega, ?_, by omega⟩
      rw [Nat.testBit_zero]
      simp
      omega

theorem trailing_ones_spec (x : Nat) (hx : x < 2 ^ 64) (hne : x ≠ U64MAX) :
    trailing_ones x < 64 ∧
    x.testBit (trailing_ones x) = false ∧
    ∀ i < trailing_ones x, x.testBit i = true := by
  have := trailingOnesAux_spec 64 x hx (by simpa [U64MAX] using hne)
  simpa [trailing_ones] using this

theorem trailingOnesAux_pow_sub_one :
    ∀ fuel r, r ≤ fuel → trailingOnesAux (2 ^ r - 1) fuel = r := by
  intro fuel
  induction fuel with
  | zero => intro r hr; interval_cases r; rfl
  | succ n ih =>
    intro r hr
    match r with
    | 0 => simp [trailingOnesAux]
    | r + 1 =>
      have h1 : (1 : Nat) ≤ 2 ^ r := Nat.one_le_two_pow
      have h2 : (2 : Nat) ^ (r + 1) = 2 * 2 ^ r := by ring
      have hodd : (2 ^ (r + 1) - 1) % 2 = 1 := by omega
      have hdiv : (2 ^ (r + 1) - 1) / 2 = 2 ^ r - 1 := by omega
      rw [trailingOnesAux, if_pos hodd, hdiv, ih r (by omega)]

theorem trailing_ones_pow_sub_one (r : Nat) (hr : r ≤ 64) :
    trailing_ones (2 ^ r - 1) = r :=
  trailingOnesAux_pow_sub_one 64 r hr

theorem or_pow_sub_one (r : Nat) :
    (2 ^ r - 1) ||| (1 <<< r) = 2 ^ (r + 1) - 1 := by
  have h1 : (1 : Nat) <<< r = 2 ^ r := by simp [Nat.shiftLeft_eq]
  rw [h1]
  apply Nat.eq_of_testBit_eq
  intro i
  rw [Nat.testBit_lor, Nat.testBit_two_pow_sub_one, Nat.testBit_two_pow,
    Nat.testBit_two_pow_sub_one]
  by_cases h : i < r
  · simp [h, show i < r + 1 by omega, show r ≠ i by omega]
  · by_cases h2 : r = i
    · simp [h2]
    · simp [h, h2, show ¬ i < r + 1 by omega]

theorem fpBlock_get (k j : Nat) (hj : j < 64) :
    (fpBlock k).get? j = some (fpWord k j) := by
  rw [fpBlock, List.get?_map, List.get?_range hj]
  rfl

theorem fpBlock_length (k : Nat) : (fpBlock k).length = 64 := by
  simp [fpBlock]

theorem fpWord_lt (k j : Nat) : fpWord k j < 2 ^ 64 := by
  have h1 : (1 : Nat) ≤ 2 ^ (k % 64) := Nat.one_le_two_pow
  have h2 : (2 : Nat) ^ (k % 64) ≤ 2 ^ 64 :=
    Nat.pow_le_pow_right (by norm_num) (by omega)
  have h3 : (0 : Nat) < 2 ^ 64 := Nat.pos_pow_of_pos _ (by norm_num)
  unfold fpWord U64MAX
  split_ifs <;> omega

theorem fpWord_partial_ne (k : Nat) (hk : k < 4096) :
    2 ^ (k % 64) - 1 ≠ U64MAX := by
  have h2 : (2 : Nat) ^ (k % 64) ≤ 2 ^ 63 :=
    Nat.pow_le_pow_right (by norm_num) (by omega)
  have h3 : (2 : Nat) ^ 63 < 2 ^ 64 := by norm_num
  unfold U64MAX
  omega

theorem find_fp (k : Nat) (hk : k < 4096) :
    findFirstIdx (fun w => decide (w ≠ U64MAX)) 0 (fpBlock k) =
      some (k / 64, 2 ^ (k % 64) - 1) := by
  have hidx : k / 64 < 64 := by omega
  have hget : (fpBlock k).get? (k / 64) = some (2 ^ (k % 64) - 1) := by
    rw [fpBlock_get k (k / 64) hidx]
    simp [fpWord]
  have := findFirstIdx_eq_some (fun w => decide (w ≠ U64MAX)) 0 (fpBlock k)
    (k / 64) (2 ^ (k % 64) - 1) hget
    (by simp [fpWord_partial_ne k hk])
    (by
      intro j b hj hb
      rw [fpBlock_get k j (by omega)] at hb
      cases hb
      simp [fpWord, hj])
  simpa using this

theorem fpBlock_set (k : Nat) (hk : k < 4096) :
    (fpBlock k).set (k / 64) (2 ^ (k % 64 + 1) - 1) = fpBlock (k + 1) := by
  apply List.ext_get?
  intro j
  by_cases hj : j < 64
  · by_cases hje : j = k / 64
    · subst hje
      rw [List.get?_set_eq, fpBlock_get k (k / 64) hj,
        fpBlock_get (k + 1) (k / 64) hj]
      show some (2 ^ (k % 64 + 1) - 1) = some (fpWord (k + 1) (k / 64))
      congr 1
      by_cases hlast : k % 64 = 63
      · have hd : (k + 1) / 64 = k / 64 + 1 := by omega
        rw [hlast]
        simp [fpWord, hd, U64MAX]
      · have hd : (k + 1) / 64 = k / 64 := by omega
        have hm : (k + 1) % 64 = k % 64 + 1 := by omega
        simp [fpWord, hd, hm]
    · rw [List.get?_set_ne _ _ (fun hc => hje hc.symm),
        fpBlock_get k j hj, fpBlock_get (k + 1) j hj]
      congr 1
      by_cases hlt : j < k / 64
      · have : j < (k + 1) / 64 := by omega
        simp [fpWord, hlt, this]
      · -- j > k / 64
        have hgt : k / 64 < j := by omega
        by_cases hlast : k % 64 = 63
        · have hd : (k + 1) / 64 = k / 64 + 1 := by omega
          have hm : (k + 1) % 64 = 0 := by omega
          by_cases hj2 : j = k / 64 + 1
          · simp [fpWord, hd, hm, hj2, show ¬ (k / 64 + 1 < k / 64 + 1) by
              omega]
          · simp [fpWord, hd, hm, show ¬ (j < k / 64) by omega,
              show ¬ (j < k / 64 + 1) by omega, hje, hj2]
        · have hd : (k + 1) / 64 = k / 64 := by omega
          simp [fpWord, hd, show ¬ (j < k / 64) by omega, hje]
  · have h1 : (fpBlock k).length = 64 := fpBlock_length k
    have h2 : (fpBlock (k + 1)).length = 64 := fpBlock_length (k + 1)
    rw [List.get?_eq_none.mpr (by simp [h1]; omega),
      List.get?_eq_none.mpr (by omega)]

theorem allocInBlock_fp (k : Nat) (hk : k < 4096) :
    allocInBlock (fpBlock k) = some (k, fpBlock (k + 1)) := by
  have ht : trailing_ones (2 ^ (k % 64) - 1) = k % 64 :=
    trailing_ones_pow_sub_one (k % 64) (by omega)
  simp only [allocInBlock, find_fp k hk]
  rw [ht, or_pow_sub_one (k % 64), fpBlock_set k hk]
  congr 1
  congr 1
  omega

theorem allocInBlock_none_iff (ws : List Nat) :
    allocInBlock ws = none ↔ ∀ w ∈ ws, w = U64MAX := by
  rw [allocInBlock]
  cases hfind : findFirstIdx (fun w => decide (w ≠ U64MAX)) 0 ws with
  | none =>
    rw [findFirstIdx_none_iff] at hfind
    simp only [true_iff]
    intro w hw
    simpa using hfind w hw
  | some pw =>
    obtain ⟨pos, w⟩ := pw
    obtain ⟨k, -, hget, hp, -⟩ := findFirstIdx_some _ _ _ _ _ hfind
    refine iff_of_false (by simp) ?_
    intro hall
    have hmem : w ∈ ws := List.get?_mem hget
    have := hall w hmem
    simp [this] at hp

theorem allocInBlock_some_spec (ws : List Nat) (pos : Nat) (ws' : List Nat)
    (h : allocInBlock ws = some (pos, ws')) :
    ∃ wpos w, ws.get? wpos = some w ∧ w ≠ U64MAX ∧
      (∀ j < wpos, ws.get? j = some U64MAX) ∧
      pos = wpos * 64 + trailing_ones w ∧
      ws' = ws.set wpos (w ||| (1 <<< trailing_ones w)) := by
  rw [allocInBlock] at h
  cases hfind : findFirstIdx (fun w => decide (w ≠ U64MAX)) 0 ws with
  | none => rw [hfind] at h; exact Option.noConfusion h
  | some pw =>
    obtain ⟨wpos, w⟩ := pw
    rw [hfind] at h
    simp only [Option.some.injEq, Prod.mk.injEq] at h
    obtain ⟨k, hk, hget, hp, hbefore⟩ := findFirstIdx_some _ _ _ _ _ hfind
    rw [Nat.zero_add] at hk
    subst hk
    refine ⟨wpos, w, hget, by simpa using hp, ?_, h.1.symm, h.2.symm⟩
    intro j hj
    have hplen : wpos < ws.length := by
      obtain ⟨hplen, -⟩ := List.get?_eq_some.mp hget
      exact hplen
    cases hbj : ws.get? j with
    | none =>
      have := List.get?_eq_none.mp hbj
      omega
    | some b =>
      have hfb := hbefore j b hj hbj
      have : b = U64MAX := by simpa using hfb
      rw [this]

theorem allocGo_spec (bm : Bitmap) (disk : BitmapDisk) :
    ∀ n s,
    (bm.allocGo disk (List.range' s n) = none ↔
      ∀ bid, s ≤ bid → bid < s + n →
        allocInBlock (disk (bid + bm.start_block_id)) = none)
    ∧ (∀ idx disk', bm.allocGo disk (List.range' s n) = some (idx, disk') →
       ∃ bid pos ws, s ≤ bid ∧ bid < s + n ∧
         (∀ b', s ≤ b' → b' < bid →
           allocInBlock (disk (b' + bm.start_block_id)) = none) ∧
         allocInBlock (disk (bid + bm.start_block_id)) = some (pos, ws) ∧
         idx = bid * BLOCK_BITS + pos ∧
         disk' = fun b =>
           if b = bid + bm.start_block_id then ws else disk b) := by
  intro n
  induction n with
  | zero =>
    intro s
    constructor
    · simp [Bitmap.allocGo]
      omega
    · intro idx disk' h
      simp [Bitmap.allocGo] at h
  | succ n ih =>
    intro s
    rw [List.range'_succ]
    constructor
    · rw [Bitmap.allocGo]
      cases hhead : allocInBlock (disk (s + bm.start_block_id)) with
      | some pw =>
        refine iff_of_false (by simp [hhead]) ?_
        intro hall
        exact absurd hhead (by simp [hall s le_rfl (by omega)])
      | none =>
        rw [(ih (s + 1)).1]
        constructor
        · intro hall bid h1 h2
          rcases Nat.eq_or_lt_of_le h1 with heq | hlt
          · subst heq; exact hhead
          · exact hall bid (by omega) (by omega)
        · intro hall bid h1 h2
          exact hall bid (by omega) (by omega)
    · intro idx disk' h
      rw [Bitmap.allocGo] at h
      cases hhead : allocInBlock (disk (s + bm.start_block_id)) with
      | some pw =>
        obtain ⟨pos, ws⟩ := pw
        rw [hhead] at h
        simp only [Option.some.injEq, Prod.mk.injEq] at h
        exact ⟨s, pos, ws, le_rfl, by omega, by omega, hhead, h.1.symm,
          h.2.symm⟩
      | none =>
        rw [hhead] at h
        obtain ⟨bid, pos, ws, h1, h2, h3, h4, h5, h6⟩ := (ih (s + 1)).2 idx
          disk' h
        refine ⟨bid, pos, ws, by omega, by omega, ?_, h4, h5, h6⟩
        intro b' hb1 hb2
        rcases Nat.eq_or_lt_of_le hb1 with heq | hlt
        · subst heq; exact hhead
        · exact h3 b' (by omega) (by omega)

theorem fpWF (k : Nat) : BitmapWF (fpDisk k) := by
  intro b
  constructor
  · unfold fpDisk
    split_ifs <;> exact fpBlock_length _
  · intro w hw
    unfold fpDisk at hw
    split_ifs at hw <;>
      · simp only [fpBlock, List.mem_map] at hw
        obtain ⟨j, -, hj⟩ := hw
        rw [← hj]
        exact fpWord_lt _ _

theorem alloc_fp (k : Nat) (hk : k < 4096) :
    bm1.alloc (fpDisk k) = some (k, fpDisk (k + 1)) := by
  rw [Bitmap.alloc]
  have hr : List.range bm1.blocks = [0] := rfl
  rw [hr, Bitmap.allocGo]
  have hd : fpDisk k (0 + bm1.start_block_id) = fpBlock k := rfl
  rw [hd, allocInBlock_fp k hk]
  simp only [Option.some.injEq, Prod.mk.injEq]
  constructor
  · simp
  · funext b
    show (if b = 0 + bm1.start_block_id then fpBlock (k + 1) else fpDisk k b)
        = fpDisk (k + 1) b
    by_cases hb : b = 0
    · subst hb
      simp [bm1, fpDisk]
    · have hb2 : ¬ b = 0 + bm1.start_block_id := by simpa [bm1] using hb
      rw [if_neg hb2]
      simp [fpDisk, hb]

theorem fpBlock_full_max (w : Nat) (hw : w ∈ fpBlock 4096) : w = U64MAX := by
  simp only [fpBlock, List.mem_map] at hw
  obtain ⟨j, hj, hw⟩ := hw
  rw [List.mem_range] at hj
  rw [← hw]
  simp [fpWord, show j < 4096 / 64 by omega]

theorem alloc_full : bm1.alloc (fpDisk 4096) = none := by
  rw [Bitmap.alloc]
  have hr : List.range bm1.blocks = [0] := rfl
  rw [hr, Bitmap.allocGo]
  have hd : fpDisk 4096 (0 + bm1.start_block_id) = fpBlock 4096 := rfl
  rw [hd, (allocInBlock_none_iff _).mpr fpBlock_full_max]
  rfl

/-! ## Lemmas about `tbbGo` -/

theorem tbbGo_eq_map (pt : Nat → Option Nat) :
    ∀ fuel start finish, finish - start ≤ fuel → start < finish →
    (∀ vpn, start / PAGE_SIZE ≤ vpn → vpn ≤ (finish - 1) / PAGE_SIZE →
      (pt vpn).isSome = true) →
    tbbGo pt start finish =
      some ((pageRange start finish).map (sliceSpec pt start finish)) := by
  intro fuel
  induction fuel with
  | zero => intro start finish hle hlt _; omega
  | succ n ih =>
    intro start finish _hle hlt hmap
    simp only [PAGE_SIZE] at hmap
    have hvpnle : start / 4096 ≤ (finish - 1) / 4096 := by omega
    obtain ⟨ppn, hppn⟩ :=
      Option.isSome_iff_exists.mp (hmap (start / 4096) le_rfl hvpnle)
    rw [tbbGo, dif_pos hlt]
    simp only [VirtAddr.floor, VirtPageNum.step, VirtAddr.page_offset,
      PAGE_SIZE, hppn]
    by_cases hend : (start / 4096 + 1) * 4096 < finish
    · -- the buffer continues past this page
      have hmin : min ((start / 4096 + 1) * 4096) finish
          = (start / 4096 + 1) * 4096 := by omega
      have hrec := ih ((start / 4096 + 1) * 4096) finish (by omega) (by omega)
        (fun vpn h1 h2 => by
          refine hmap vpn ?_ ?_ <;> simp only [PAGE_SIZE] at h1 h2 <;> omega)
      rw [hmin, hrec]
      have hrange : pageRange start finish =
          start / 4096 :: pageRange ((start / 4096 + 1) * 4096) finish := by
        simp only [pageRange, PAGE_SIZE]
        have hdiv : (start / 4096 + 1) * 4096 / 4096 = start / 4096 + 1 := by
          omega
        have hcount : (finish - 1) / 4096 + 1 - start / 4096
            = ((finish - 1) / 4096 + 1 - (start / 4096 + 1)) + 1 := by omega
        rw [hdiv, hcount, List.range'_succ]
      rw [hrange]
      simp only [List.map_cons, Option.some.injEq, List.cons.injEq]
      constructor
      · -- the head slice
        simp only [sliceSpec, hppn, Option.getD_some, PAGE_SIZE,
          Prod.mk.injEq]
        refine ⟨by trivial, by omega, ?_⟩
        have hmod : (start / 4096 + 1) * 4096 % 4096 = 0 := by omega
        rw [hmod, if_pos rfl]
        omega
      · -- the tail slices agree between the two buffer descriptions
        refine List.map_congr_left ?_
        intro v hv
        simp only [pageRange, PAGE_SIZE, List.mem_range'_1] at hv
        have hvge : start / 4096 + 1 ≤ v := by omega
        simp only [sliceSpec, PAGE_SIZE]
        have hmul : (start / 4096 + 1) * 4096 ≤ v * 4096 :=
          Nat.mul_le_mul_right _ hvge
        have h1 : max start (v * 4096) = v * 4096 := by omega
        have h2 : max ((start / 4096 + 1) * 4096) (v * 4096) = v * 4096 := by
          omega
        rw [h1, h2]
    · -- the buffer ends inside this page
      have hmin : min ((start / 4096 + 1) * 4096) finish = finish := by omega
      rw [hmin]
      have hrec : tbbGo pt finish finish = some [] := by
        rw [tbbGo, dif_neg (by omega)]
      rw [hrec]
      have hrange : pageRange start finish = [start / 4096] := by
        simp only [pageRange, PAGE_SIZE]
        have hm : (finish - 1) / 4096 = start / 4096 := by omega
        rw [hm]
        have : start / 4096 + 1 - start / 4096 = 1 := by omega
        rw [this]
        rfl
      rw [hrange]
      simp only [List.map_cons, List.map_nil, Option.some.injEq,
        List.cons.injEq, and_true]
      simp only [sliceSpec, hppn, Option.getD_some, PAGE_SIZE, Prod.mk.injEq]
      refine ⟨by trivial, by omega, ?_⟩
      by_cases hf : finish % 4096 = 0
      · rw [hf, if_pos rfl]
        omega
      · rw [if_neg hf]
        omega

theorem tbbGo_sum (pt : Nat → Option Nat) :
    ∀ fuel start finish, finish - start ≤ fuel →
    ∀ l, tbbGo pt start finish = some l →
      (l.map (fun s => s.2.2 - s.2.1)).sum = finish - start := by
  intro fuel
  induction fuel with
  | zero =>
    intro start finish hle l h
    rw [tbbGo, dif_neg (by omega)] at h
    cases h
    simp only [List.map_nil, List.sum_nil]
    omega
  | succ n ih =>
    intro start finish hle l h
    by_cases hlt : start < finish
    · rw [tbbGo, dif_pos hlt] at h
      simp only [VirtAddr.floor, VirtPageNum.step, VirtAddr.page_offset,
        PAGE_SIZE] at h
      cases hppn : pt (start / 4096) with
      | none => rw [hppn] at h; exact Option.noConfusion h
      | some ppn =>
        simp only [hppn] at h
        cases hrest : tbbGo pt (min ((start / 4096 + 1) * 4096) finish)
            finish with
        | none => rw [hrest] at h; exact Option.noConfusion h
        | some rest =>
          simp only [hrest, Option.some.injEq] at h
          subst h
          have hsum := ih (min ((start / 4096 + 1) * 4096) finish) finish
            (by omega) rest hrest
          simp only [List.map_cons, List.sum_cons, hsum]
          by_cases hmod : min ((start / 4096 + 1) * 4096) finish % 4096 = 0
          · rw [if_pos hmod]; omega
          · rw [if_neg hmod]; omega
    · rw [tbbGo, dif_neg hlt] at h
      cases h
      simp only [List.map_nil, List.sum_nil]
      omega

theorem tbbGo_bounds (pt : Nat → Option Nat) :
    ∀ fuel start finish, finish - start ≤ fuel →
    ∀ l, tbbGo pt start finish = some l →
      ∀ s ∈ l, s.2.1 < s.2.2 ∧ s.2.2 ≤ PAGE_SIZE := by
  intro fuel
  induction fuel with
  | zero =>
    intro start finish hle l h
    rw [tbbGo, dif_neg (by omega)] at h
    cases h
    simp
  | succ n ih =>
    intro start finish hle l h
    by_cases hlt : start < finish
    · rw [tbbGo, dif_pos hlt] at h
      simp only [VirtAddr.floor, VirtPageNum.step, VirtAddr.page_offset,
        PAGE_SIZE] at h
      cases hppn : pt (start / 4096) with
      | none => rw [hppn] at h; exact Option.noConfusion h
      | some ppn =>
        simp only [hppn] at h
        cases hrest : tbbGo pt (min ((start / 4096 + 1) * 4096) finish)
            finish with
        | none => rw [hrest] at h; exact Option.noConfusion h
        | some rest =>
          simp only [hrest, Option.some.injEq] at h
          subst h
          intro s hs
          rcases List.mem_cons.mp hs with hhead | htail
          · subst hhead
            simp only [PAGE_SIZE]
            by_cases hmod : min ((start / 4096 + 1) * 4096) finish % 4096 = 0
            · rw [if_pos hmod]
              constructor <;> omega
            · rw [if_neg hmod]
              constructor <;> omega
          · exact ih (min ((start / 4096 + 1) * 4096) finish) finish
              (by omega) rest hrest s htail
    · rw [tbbGo, dif_neg hlt] at h
      cases h
      simp

/-- C10: with every virtual page of `[ptr, ptr+len)` mapped (to pairwise
distinct frames, as in a real address space), `translated_byte_buffer`
returns a list of kernel-visible byte slices whose lengths sum to exactly
`len`, each lying within a single frame; the list is exactly one slice per
consecutive virtual page of the buffer — the intersection of the buffer
with that page, relative to the page base, on that page's frame — so
consecutive slices correspond to consecutive virtual addresses split only
at page boundaries, and the slices are pairwise on distinct frames, hence
non-overlapping. -/
theorem translated_byte_buffer_spec (pt : Nat → Option Nat) (ptr len : Nat)
    (hlen : 0 < len)
    (hmap : ∀ vpn, ptr / PAGE_SIZE ≤ vpn → vpn ≤ (ptr + len - 1) / PAGE_SIZE →
      (pt vpn).isSome = true)
    (hinj : ∀ v1 v2 p1 p2, ptr / PAGE_SIZE ≤ v1 →
      v1 ≤ (ptr + len - 1) / PAGE_SIZE → ptr / PAGE_SIZE ≤ v2 →
      v2 ≤ (ptr + len - 1) / PAGE_SIZE → v1 ≠ v2 →
      pt v1 = some p1 → pt v2 = some p2 → p1 ≠ p2) :
    ∃ slices,
      translated_byte_buffer pt ptr len = some slices
      ∧ (slices.map (fun s => s.2.2 - s.2.1)).sum = len
      ∧ (∀ s ∈ slices, s.2.1 < s.2.2 ∧ s.2.2 ≤ PAGE_SIZE)
      ∧ slices = (pageRange ptr (ptr + len)).map (sliceSpec pt ptr (ptr + len))
      ∧ slices.Pairwise (fun s t => s.1 ≠ t.1) := by
  have heq := tbbGo_eq_map pt len ptr (ptr + len) (by omega) (by omega) hmap
  refine ⟨_, heq, ?_, ?_, rfl, ?_⟩
  · have := tbbGo_sum pt len ptr (ptr + len) (by omega) _ heq
    omega
  · exact fun s hs => tbbGo_bounds pt len ptr (ptr + len) (by omega) _ heq s hs
  · rw [List.pairwise_map]
    have hlt : (pageRange ptr (ptr + len)).Pairwise (· < ·) := by
      simp only [pageRange]
      exact List.pairwise_lt_range' _ _
    refine hlt.imp_of_mem ?_
    intro v w hv hw hvw
    simp only [pageRange, List.mem_range'_1, PAGE_SIZE] at hv hw
    simp only [PAGE_SIZE] at hmap hinj
    obtain ⟨p1, hp1⟩ := Option.isSome_iff_exists.mp
      (hmap v (by omega) (by omega))
    obtain ⟨p2, hp2⟩ := Option.isSome_iff_exists.mp
      (hmap w (by omega) (by omega))
    simp only [sliceSpec, hp1, hp2, Option.getD_some]
    exact hinj v w p1 p2 (by omega) (by omega) (by omega) (by omega)
      (by omega) hp1 hp2

/-- Witness for C10: translating the 10-byte buffer at virtual address
4090 through a two-page table yields slices with the stated properties. -/
theorem translated_byte_buffer_spec_witness :
    ∃ slices,
      translated_byte_buffer
          (fun v => if v = 0 then some 100 else
            if v = 1 then some 200 else none) 4090 10 = some slices
      ∧ (slices.map (fun s => s.2.2 - s.2.1)).sum = 10
      ∧ (∀ s ∈ slices, s.2.1 < s.2.2 ∧ s.2.2 ≤ PAGE_SIZE)
      ∧ slices = (pageRange 4090 (4090 + 10)).map
          (sliceSpec (fun v => if v = 0 then some 100 else
            if v = 1 then some 200 else none) 4090 (4090 + 10))
      ∧ slices.Pairwise (fun s t => s.1 ≠ t.1) :=
  translated_byte_buffer_spec _ 4090 10 (by norm_num)
    (by
      intro v h1 h2
      simp only [PAGE_SIZE] at h1 h2
      norm_num at h2
      interval_cases v <;> simp)
    (by
      intro v1 v2 p1 p2 h1 h2 h3 h4 hne hp1 hp2
      simp only [PAGE_SIZE] at h2 h4
      norm_num at h2 h4
      interval_cases v1 <;> interval_cases v2 <;> simp_all <;> omega)

/-- C4: after a write through the cache leaves block `b` holding content
`B` (the buffer `e1.cache` right after the `modify`), any sequence of cache
operations that does not write `b` — lookups of arbitrary blocks forcing
loads and evictions, typed writes to other blocks, explicit syncs —
preserves it, and a subsequent read of `b` through the cache returns `B`;
moreover write-back to the device on eviction or sync occurs iff the entry
is dirty. -/
theorem block_cache_coherence (m : BlockCacheManager) (hwf : CacheWF m)
    (hunp : Unpinned m) (b : Nat) (f : Block → Block) (ops : List CacheOp)
    (hops : ∀ op ∈ ops, notWrites op b) :
    (∃ m1 e1 m2 m3, mutateBlock b f m = some m1 ∧ entryFor b m1 = some e1
      ∧ runOps m1 ops = some m2 ∧ readBlock b m2 = some (e1.cache, m3))
    ∧ (∀ (e : CacheEntry) (d : Nat → Block), e.modified = false →
        writeBack e d = d)
    ∧ (∀ (e : CacheEntry) (d : Nat → Block), e.modified = true →
        writeBack e d = fun bb => if bb = e.block_id then e.cache
          else d bb) := by
  refine ⟨?_, fun e d h => writeBack_clean e d h,
    fun e d h => by unfold writeBack; rw [if_pos h]⟩
  obtain ⟨m1, e1, h1, hw1, hu1, hf1, hm1, hc1⟩ :=
    mutateBlock_init b f m hwf hunp
  obtain ⟨m2, h2, hw2, hu2, hc2⟩ :=
    runOps_preserve ops m1 b e1.cache hw1 hu1 hc1 hops
  obtain ⟨m3, h3⟩ := readBlock_final b e1.cache m2 hw2 hu2 hc2
  exact ⟨m1, e1, m2, m3, h1, hf1, h2, h3⟩

/-- Witness for C4: starting from the empty cache over a zeroed device,
write block 3, then sync and touch block 5; the read of block 3 still
returns the written content. -/
theorem block_cache_coherence_witness :
    ∃ m1 e1 m2 m3,
      mutateBlock 3 (fun _ => [7]) ⟨[], fun _ => []⟩ = some m1
      ∧ entryFor 3 m1 = some e1
      ∧ runOps m1 [CacheOp.sync, CacheOp.touch 5] = some m2
      ∧ readBlock 3 m2 = some (e1.cache, m3) :=
  (block_cache_coherence ⟨[], fun _ => []⟩ (by simp [CacheWF])
    (by intro e he; simp at he) 3 (fun _ => [7])
    [CacheOp.sync, CacheOp.touch 5]
    (by
      intro op hop
      rcases List.mem_cons.mp hop with rfl | hop
      · trivial
      · rcases List.mem_cons.mp hop with rfl | hop
        · trivial
        · simp at hop)).1

/-- C5: a `get_block_cache` lookup of block `bid`: when an entry for `bid`
is present its shared handle is returned (the strong count of exactly that
entry grows by one) and no entry is evicted (the queue's block ids are
unchanged); when absent and the cache holds 16 entries, the first entry in
insertion order whose strong count is exactly one is evicted (written back
via its drop) before a fresh entry for `bid` is appended; and when absent,
full, and every entry's strong count exceeds one, the kernel panics
(`none`). -/
theorem get_block_cache_spec (bid : Nat) (m : BlockCacheManager) :
    (∀ e, entryFor bid m = some e →
      get_block_cache bid m = some { m with queue := m.queue.map (fun e =>
        if e.block_id == bid then { e with refCount := e.refCount + 1 }
        else e) }
      ∧ (m.queue.map (fun e =>
          if e.block_id == bid then { e with refCount := e.refCount + 1 }
          else e)).map CacheEntry.block_id = m.queue.map CacheEntry.block_id)
    ∧ (∀ idx e, m.queue.length = BLOCK_CACHE_SIZE →
       entryFor bid m = none →
       m.queue.get? idx = some e → e.refCount = 1 →
       (∀ j e', j < idx → m.queue.get? j = some e' → e'.refCount ≠ 1) →
       get_block_cache bid m = some
         { queue := m.queue.eraseIdx idx ++
             [⟨bid, writeBack e m.disk bid, false, 2⟩],
           disk := writeBack e m.disk })
    ∧ (m.queue.length = BLOCK_CACHE_SIZE →
       entryFor bid m = none →
       (∀ e ∈ m.queue, e.refCount ≠ 1) →
       get_block_cache bid m = none) := by
  refine ⟨?_, ?_, ?_⟩
  · intro e hfind
    refine ⟨?_, map_block_id_map _
      (fun e => by by_cases hx : e.block_id = bid <;> simp [hx]) m.queue⟩
    rw [get_block_cache]
    rw [show m.queue.find? (fun e => e.block_id == bid) = some e from hfind]
  · intro idx e hlen hfind hget hrc hbefore
    rw [get_block_cache]
    rw [show m.queue.find? (fun e => e.block_id == bid) = none from hfind]
    rw [if_pos hlen]
    have hff : findFirstIdx (fun e => e.refCount == 1) 0 m.queue
        = some (idx, e) := by
      have := findFirstIdx_eq_some (fun e => e.refCount == 1) 0 m.queue idx
        e hget (by simp [hrc])
        (fun j e' hj hget' => by simpa using hbefore j e' hj hget')
      simpa using this
    rw [hff]
  · intro hlen hfind hall
    rw [get_block_cache]
    rw [show m.queue.find? (fun e => e.block_id == bid) = none from hfind]
    rw [if_pos hlen]
    have hff : findFirstIdx (fun e => e.refCount == 1) 0 m.queue = none := by
      rw [findFirstIdx_none_iff]
      intro e he
      simpa using hall e he
    rw [hff]

/-- Witness for C5: a hit on the one-entry cache bumps that entry's strong
count, and a miss on a full cache of pinned entries panics. -/
theorem get_block_cache_spec_witness :
    get_block_cache 7 ⟨[⟨7, [], false, 1⟩], fun _ => []⟩ =
      some ⟨[⟨7, [], false, 2⟩], fun _ => []⟩
    ∧ get_block_cache 5
        ⟨List.replicate 16 ⟨9, [], false, 2⟩, fun _ => []⟩ = none := by
  constructor
  · have h := ((get_block_cache_spec 7
      ⟨[⟨7, [], false, 1⟩], fun _ => []⟩).1 ⟨7, [], false, 1⟩ rfl).1
    rw [h]
    rfl
  · exact (get_block_cache_spec 5
      ⟨List.replicate 16 ⟨9, [], false, 2⟩, fun _ => []⟩).2.2 rfl rfl
      (by decide)

/-- C6: `Bitmap::alloc` scans the blocks in order and, within a block, the
64 words in order; it returns the absolute index of the lowest clear bit of
the first non-full word of the first non-full block (setting that bit), or
`None` when every bit of every block is set.  In particular, on a 1-block
bitmap the k-th alloc from empty returns k (so 4096 successive allocs
succeed), the 4097th alloc returns `None`, and after dealloc of bit 0 the
next alloc returns 0. -/
theorem bitmap_alloc_spec (bm : Bitmap) (disk : BitmapDisk)
    (hwf : BitmapWF disk) :
    (bm.alloc disk = none ↔
      ∀ bid, bid < bm.blocks →
        ∀ w ∈ disk (bid + bm.start_block_id), w = U64MAX)
    ∧ (∀ idx disk', bm.alloc disk = some (idx, disk') →
       ∃ bid wpos w, bid < bm.blocks
         ∧ (∀ b', b' < bid → ∀ w' ∈ disk (b' + bm.start_block_id),
             w' = U64MAX)
         ∧ (disk (bid + bm.start_block_id)).get? wpos = some w
         ∧ w ≠ U64MAX
         ∧ (∀ j, j < wpos →
             (disk (bid + bm.start_block_id)).get? j = some U64MAX)
         ∧ w.testBit (trailing_ones w) = false
         ∧ (∀ i, i < trailing_ones w → w.testBit i = true)
         ∧ idx = bid * BLOCK_BITS + (wpos * 64 + trailing_ones w)
         ∧ disk' = fun b => if b = bid + bm.start_block_id then
             (disk (bid + bm.start_block_id)).set wpos
               (w ||| (1 <<< trailing_ones w)) else disk b)
    ∧ (∀ k, k < 4096 → bm1.alloc (fpDisk k) = some (k, fpDisk (k + 1)))
    ∧ bm1.alloc (fpDisk 4096) = none
    ∧ (∃ d d', bm1.dealloc (fpDisk 4096) 0 = some d
        ∧ bm1.alloc d = some (0, d')) := by
  refine ⟨?_, ?_, fun k hk => alloc_fp k hk, alloc_full, ⟨_, _, rfl, rfl⟩⟩
  · rw [Bitmap.alloc, List.range_eq_range',
      ((allocGo_spec bm disk bm.blocks 0).1)]
    constructor
    · intro hall bid hbid
      exact (allocInBlock_none_iff _).mp (hall bid (by omega) (by omega))
    · intro hall bid _ hbid
      exact (allocInBlock_none_iff _).mpr (hall bid (by omega))
  · intro idx disk' h
    rw [Bitmap.alloc, List.range_eq_range'] at h
    obtain ⟨bid, pos, ws, -, hbid, hfull, hsome, hidx, hdisk⟩ :=
      (allocGo_spec bm disk bm.blocks 0).2 idx disk' h
    obtain ⟨wpos, w, hget, hne, hbefore, hpos, hws⟩ :=
      allocInBlock_some_spec _ _ _ hsome
    have hwlt : w < 2 ^ 64 :=
      (hwf (bid + bm.start_block_id)).2 w (List.get?_mem hget)
    obtain ⟨-, hbit, hlow⟩ := trailing_ones_spec w hwlt hne
    refine ⟨bid, wpos, w, by omega, ?_, hget, hne, hbefore, hbit, hlow,
      by omega, ?_⟩
    · intro b' hb'
      exact (allocInBlock_none_iff _).mp (hfull b' (by omega) (by omega))
    · rw [hdisk, hws]

/-- Witness for C6: the first alloc on the empty one-block bitmap returns
bit 0 and sets it. -/
theorem bitmap_alloc_spec_witness :
    bm1.alloc (fpDisk 0) = some (0, fpDisk 1) :=
  (bitmap_alloc_spec bm1 (fpDisk 0) (fpWF 0)).2.2.1 0 (by norm_num)

theorem from_bits_shift (n : Nat) (hn : n ≤ 31) :
    SignalFlags.from_bits (1 <<< n) = some (2 ^ n) := by
  have h1 : (1 : Nat) <<< n = 2 ^ n := by simp [Nat.shiftLeft_eq]
  have h2 : 2 ^ n < 4294967296 :=
    lt_of_lt_of_le (Nat.pow_lt_pow_right (by norm_num) (show n < 32 by omega))
      (by norm_num)
  simp [SignalFlags.from_bits, h1, h2]

theorem check_sigaction_error_false_iff (signal : SignalFlags)
    (action old_action : Nat) :
    check_sigaction_error signal action old_action = false ↔
      action ≠ 0 ∧ old_action ≠ 0 ∧ signal ≠ SIGKILL ∧ signal ≠ SIGSTOP := by
  simp [check_sigaction_error, and_assoc]

/-- C9: `sys_sigaction` returns `-1` leaving the action table unchanged and
writing nothing when the signal number does not name one of the 32 valid
signals, when either pointer argument is null, or when the signal is
SIGKILL (9) or SIGSTOP (19); otherwise it writes the previous action for
`signum` through `old_action`, installs the new action read from `action`,
and returns `0`.  `signum` ranges over i32. -/
theorem sys_sigaction_spec (signum : Int) (action old_action : Nat)
    (newAct : SignalAction) (table : List SignalAction)
    (hlo : -(2 ^ 31) ≤ signum) (hhi : signum < 2 ^ 31) :
    ((signum < 0 ∨ 31 < signum) →
      sys_sigaction signum action old_action newAct table = (-1, table, none))
    ∧ ((action = 0 ∨ old_action = 0) →
      sys_sigaction signum action old_action newAct table = (-1, table, none))
    ∧ ((signum = 9 ∨ signum = 19) →
      sys_sigaction signum action old_action newAct table = (-1, table, none))
    ∧ (0 ≤ signum → signum ≤ 31 → signum ≠ 9 → signum ≠ 19 →
       action ≠ 0 → old_action ≠ 0 →
      sys_sigaction signum action old_action newAct table =
        (0, table.set signum.toNat newAct,
          some (table.getD signum.toNat ⟨0, 0⟩))) := by
  refine ⟨?_, ?_, ?_, ?_⟩
  · intro hbad
    have h31 : asUsize signum > 31 := by
      unfold asUsize
      rcases hbad with hneg | hbig <;> omega
    simp [sys_sigaction, MAX_SIG, h31]
  · intro hnull
    by_cases h31 : asUsize signum > 31
    · simp [sys_sigaction, MAX_SIG, h31]
    · have herr :
          check_sigaction_error (2 ^ asUsize signum) action old_action
            = true := by
        rcases hnull with h | h <;> simp [check_sigaction_error, h]
      simp [sys_sigaction, MAX_SIG, h31,
        from_bits_shift (asUsize signum) (by omega), herr]
  · intro hsig
    rcases hsig with h | h <;> subst h
    · have h1 : (9 : Int).toNat = 9 := rfl
      norm_num [sys_sigaction, MAX_SIG, asUsize, SignalFlags.from_bits,
        check_sigaction_error, SIGKILL, SIGSTOP, Nat.shiftLeft_eq, h1]
    · have h1 : (19 : Int).toNat = 19 := rfl
      norm_num [sys_sigaction, MAX_SIG, asUsize, SignalFlags.from_bits,
        check_sigaction_error, SIGKILL, SIGSTOP, Nat.shiftLeft_eq, h1]
  · intro h0 h31 h9 h19 hact hold
    have hn : asUsize signum = signum.toNat := by unfold asUsize; omega
    have hle : asUsize signum ≤ 31 := by omega
    have hne9 : (2 : Nat) ^ asUsize signum ≠ 2 ^ 9 := by
      intro hc
      have := Nat.pow_right_injective (by norm_num) hc
      omega
    have hne19 : (2 : Nat) ^ asUsize signum ≠ 2 ^ 19 := by
      intro hc
      have := Nat.pow_right_injective (by norm_num) hc
      omega
    have herr :
        check_sigaction_error (2 ^ asUsize signum) action old_action
          = false := by
      rw [check_sigaction_error_false_iff]
      exact ⟨hact, hold, hne9, hne19⟩
    have hnotgt : ¬ asUsize signum > MAX_SIG := by simp [MAX_SIG]; omega
    rw [sys_sigaction, if_neg hnotgt, from_bits_shift (asUsize signum) hle]
    rw [hn] at herr
    simp [herr, hn]

/-- Witness for C9: installing a handler for signal 5 with non-null
pointers into the empty table succeeds, returning 0 and the default
previous action. -/
theorem sys_sigaction_spec_witness :
    sys_sigaction 5 4096 8192 ⟨77, 3⟩ [] = (0, [], some ⟨0, 0⟩) :=
  (sys_sigaction_spec 5 4096 8192 ⟨77, 3⟩ [] (by norm_num)
    (by norm_num)).2.2.2 (by norm_num) (by norm_num) (by norm_num)
    (by norm_num) (by norm_num) (by norm_num)

/-- C7: whenever the ring is empty and every write end has been dropped
(the weak reference no longer upgrades), `Pipe::read` returns the bytes
transferred so far — in particular `0` when nothing was transferred —
instead of blocking; whenever the ring is empty but a write end is alive,
the reader yields and retries rather than returning. -/
theorem pipe_read_eof_spec (rb : PipeRingBuffer) (alive : Bool)
    (want already : Nat) :
    (rb.available_read = 0 → alive = false →
      pipeReadRound rb alive want already = .ret already rb)
    ∧ (rb.available_read = 0 →
      pipeReadRound rb false want 0 = .ret 0 rb)
    ∧ (rb.available_read = 0 → alive = true →
      pipeReadRound rb alive want already = .yieldRetry already rb) := by
  refine ⟨?_, ?_, ?_⟩
  · intro h0 halive
    subst halive
    simp [pipeReadRound, h0, allWriteEndsClosed]
  · intro h0
    simp [pipeReadRound, h0, allWriteEndsClosed]
  · intro h0 halive
    subst halive
    simp [pipeReadRound, h0, allWriteEndsClosed]

/-- Witness for C7: on the freshly created empty ring, a read with no
live write end returns 0 at once, and with a live write end it yields. -/
theorem pipe_read_eof_spec_witness :
    pipeReadRound PipeRingBuffer.new false 10 0 = .ret 0 PipeRingBuffer.new
    ∧ pipeReadRound PipeRingBuffer.new true 10 0 =
        .yieldRetry 0 PipeRingBuffer.new :=
  ⟨(pipe_read_eof_spec PipeRingBuffer.new false 10 0).1 (by decide) rfl,
   (pipe_read_eof_spec PipeRingBuffer.new true 10 0).2.2 (by decide) rfl⟩

/-- C8: the ring invariant `head == tail ↔ status ∈ {Empty, Full}` is
preserved by `write_byte` (allowed when not full) and `read_byte` (allowed
when not empty); `write_byte` sets `Full` exactly when the advanced tail
equals `head`, `read_byte` sets `Empty` exactly when the advanced head
equals `tail`; and `available_read`/`available_write` report the exact byte
counts: a write increments `available_read`, a read decrements it, and the
two always sum to the capacity 32. -/
theorem pipe_ring_invariant_spec (rb : PipeRingBuffer) (hinv : ringInv rb) :
    (∀ b, rb.status ≠ RingBufferStatus.Full →
      ringInv (rb.write_byte b)
      ∧ ((rb.write_byte b).status = RingBufferStatus.Full ↔
          (rb.tail + 1) % RING_BUFFER_SIZE = rb.head)
      ∧ (rb.write_byte b).available_read = rb.available_read + 1)
    ∧ (rb.status ≠ RingBufferStatus.Empty →
      ringInv (rb.read_byte).2
      ∧ ((rb.read_byte).2.status = RingBufferStatus.Empty ↔
          (rb.head + 1) % RING_BUFFER_SIZE = rb.tail)
      ∧ (rb.read_byte).2.available_read + 1 = rb.available_read)
    ∧ rb.available_read + rb.available_write = RING_BUFFER_SIZE := by
  obtain ⟨arr, h, t, s⟩ := rb
  obtain ⟨hh, ht, hs⟩ := hinv
  simp only [RING_BUFFER_SIZE] at *
  refine ⟨?_, ?_, ?_⟩
  · intro b hsne
    cases s with
    | Full => exact absurd rfl hsne
    | Empty =>
      have hht : h = t := hs.mpr (Or.inl rfl)
      subst hht
      simp only [PipeRingBuffer.write_byte, PipeRingBuffer.available_read,
        ringInv, RING_BUFFER_SIZE, beq_iff_eq]
      split_ifs with hfull <;>
        simp_all <;> omega
    | Normal =>
      have hht : ¬ h = t := fun hc => by simpa using hs.mp hc
      simp only [PipeRingBuffer.write_byte, PipeRingBuffer.available_read,
        ringInv, RING_BUFFER_SIZE, beq_iff_eq]
      split_ifs with hfull <;>
        simp_all <;> omega
  · intro hsne
    cases s with
    | Empty => exact absurd rfl hsne
    | Full =>
      have hht : h = t := hs.mpr (Or.inr rfl)
      subst hht
      simp only [PipeRingBuffer.read_byte, PipeRingBuffer.available_read,
        ringInv, RING_BUFFER_SIZE, beq_iff_eq]
      split_ifs with hempty <;>
        simp_all <;> omega
    | Normal =>
      have hht : ¬ h = t := fun hc => by simpa using hs.mp hc
      simp only [PipeRingBuffer.read_byte, PipeRingBuffer.available_read,
        ringInv, RING_BUFFER_SIZE, beq_iff_eq]
      split_ifs with hempty <;>
        simp_all <;> omega
  · cases s with
    | Empty =>
      simp [PipeRingBuffer.available_read, PipeRingBuffer.available_write,
        RING_BUFFER_SIZE]
    | Full =>
      have hht : h = t := hs.mpr (Or.inr rfl)
      subst hht
      simp [PipeRingBuffer.available_read, PipeRingBuffer.available_write,
        RING_BUFFER_SIZE]
    | Normal =>
      have hht : ¬ h = t := fun hc => by simpa using hs.mp hc
      simp only [PipeRingBuffer.available_read, PipeRingBuffer.available_write,
        RING_BUFFER_SIZE, beq_iff_eq, reduceCtorEq, if_false]
      split_ifs <;> omega

/-- Witness for C8: on the fresh empty ring, writing byte 7 preserves the
invariant, does not fill the ring, and raises `available_read` to 1. -/
theorem pipe_ring_invariant_spec_witness :
    ringInv (PipeRingBuffer.new.write_byte 7)
    ∧ ((PipeRingBuffer.new.write_byte 7).status = RingBufferStatus.Full ↔
        (PipeRingBuffer.new.tail + 1) % RING_BUFFER_SIZE =
          PipeRingBuffer.new.head)
    ∧ (PipeRingBuffer.new.write_byte 7).available_read =
        PipeRingBuffer.new.available_read + 1 :=
  (pipe_ring_invariant_spec PipeRingBuffer.new
    (by refine ⟨by decide, by decide, by decide⟩)).1 7 (by decide)

/-- Witness for C3 at further concrete fds: both syscalls panic on fd 3
and fd 5 respectively. -/
theorem sys_write_read_bad_fd_panics_witness :
    sys_write 3 7 = SysResult.panicked ∧ sys_read 5 1 = SysResult.panicked :=
  ⟨sys_write_read_bad_fd_panics.2.2.1 3 7 (by decide),
   sys_write_read_bad_fd_panics.2.2.2 5 1 (by decide)⟩

end RCore
